import Mathlib

/-!
# A verification model of `main.go` (a minimal HTTP/1.x server)

The program is one Go file.  `handleConnection` reads a request line and a header
block through `net/textproto` over a `bufio.Reader`, reads an optional body of
`Content-Length` bytes with a single `Read`, looks the key `method + " " + path`
up in the global `routes` map and writes the serialized response.

Conventions of the embedding
* a Go `string` / `[]byte` is a list of bytes (`Bytes`, natural numbers below 256);
* a Go `map` is an association list with unique keys (`GoMap`);
* `int` is the 64-bit Go `int`: `strconv.Atoi` fails outside `[-2^63, 2^63)`;
* `make([]byte, n)` panics for `n < 0` and for `n` above the runtime's `maxAlloc`
  (`2^48` on a 64-bit platform); an allocation that `makeslice` accepts is taken
  to succeed;
* the connection is the list of its deliveries (`Conn`): one `Read` on the socket
  returns a non-empty initial part of the first delivery, and fails once no
  delivery is left (end of stream or another I/O error; the program treats both
  alike, the difference being one log line);
* logging and `conn.Close()` are not observable here and are left out; a failed
  `conn.Write` is ignored by the program, so the outcome records the bytes handed
  to `conn.Write`.
-/

set_option maxRecDepth 8192

namespace GoHttp

/-! ## Bytes and text -/

/-- A Go string or byte slice. -/
abbrev Bytes := List Nat

/-- UTF-8 encoding of one code point, as the Go compiler stores string literals. -/
def utf8 (c : Nat) : Bytes :=
  if c < 0x80 then [c]
  else if c < 0x800 then [0xC0 + c / 64, 0x80 + c % 64]
  else if c < 0x10000 then [0xE0 + c / 4096, 0x80 + c / 64 % 64, 0x80 + c % 64]
  else [0xF0 + c / 262144, 0x80 + c / 4096 % 64, 0x80 + c / 64 % 64, 0x80 + c % 64]

/-- The bytes of a string literal. -/
def bytesOf (s : String) : Bytes :=
  s.toList.flatMap fun c => utf8 c.toNat

/-! ## `unicode/utf8` and `unicode.IsSpace` -/

/-- The rune `utf8.RuneError`. -/
def runeError : Nat := 0xFFFD

/-- Go `utf8.DecodeRuneInString`: the first rune of `s` and its width in bytes;
    `(RuneError, 0)` for the empty string and `(RuneError, 1)` for an invalid
    encoding. -/
def decodeRune (s : Bytes) : Nat × Nat :=
  match s with
  | [] => (runeError, 0)
  | s0 :: t =>
    if s0 < 0x80 then (s0, 1)
    else if s0 < 0xC2 ∨ 0xF4 < s0 then (runeError, 1)
    else
      let sz := if s0 < 0xE0 then 2 else if s0 < 0xF0 then 3 else 4
      let lo := if s0 = 0xE0 then 0xA0 else if s0 = 0xF0 then 0x90 else 0x80
      let hi := if s0 = 0xED then 0x9F else if s0 = 0xF4 then 0x8F else 0xBF
      if s.length < sz then (runeError, 1)
      else
        match t with
        | [] => (runeError, 1)
        | s1 :: t1 =>
          if s1 < lo ∨ hi < s1 then (runeError, 1)
          else if sz ≤ 2 then (s0 % 32 * 64 + s1 % 64, 2)
          else
            match t1 with
            | [] => (runeError, 1)
            | s2 :: t2 =>
              if s2 < 0x80 ∨ 0xBF < s2 then (runeError, 1)
              else if sz ≤ 3 then (s0 % 16 * 4096 + s1 % 64 * 64 + s2 % 64, 3)
              else
                match t2 with
                | [] => (runeError, 1)
                | s3 :: _ =>
                  if s3 < 0x80 ∨ 0xBF < s3 then (runeError, 1)
                  else (s0 % 8 * 262144 + s1 % 64 * 4096 + s2 % 64 * 64 + s3 % 64, 4)

/-- The rest of `utf8.DecodeRuneInString` once the first byte `s0` has given the
    width `sz` of the encoding and the range `lo..hi` accepted for the second
    byte; `t` holds the bytes after `s0`. -/
def decodeTail (sz lo hi s0 : Nat) (t : Bytes) : Nat × Nat :=
  if t.length + 1 < sz then (runeError, 1)
  else
    match t with
    | [] => (runeError, 1)
    | s1 :: t1 =>
      if s1 < lo ∨ hi < s1 then (runeError, 1)
      else if sz ≤ 2 then (s0 % 32 * 64 + s1 % 64, 2)
      else
        match t1 with
        | [] => (runeError, 1)
        | s2 :: t2 =>
          if s2 < 0x80 ∨ 0xBF < s2 then (runeError, 1)
          else if sz ≤ 3 then (s0 % 16 * 4096 + s1 % 64 * 64 + s2 % 64, 3)
          else
            match t2 with
            | [] => (runeError, 1)
            | s3 :: _ =>
              if s3 < 0x80 ∨ 0xBF < s3 then (runeError, 1)
              else (s0 % 8 * 262144 + s1 % 64 * 4096 + s2 % 64 * 64 + s3 % 64, 4)

/-- Go `utf8.RuneStart`: the byte is not a continuation byte. -/
def runeStart (b : Nat) : Bool := !(0x80 ≤ b ∧ b < 0xC0)

/-- The start index chosen by `utf8.DecodeLastRuneInString` for a string of
    length `len` whose reversal is `rev`: scanning down from `len - 2` to
    `lim = max 0 (len - 4)`, the first index holding a rune start; when there
    is none, `lim - 1`, or `0` if that is negative. -/
def lastRuneStart (rev : Bytes) (len : Nat) : Nat :=
  let lim := len - 4
  let scan : List Nat := (List.range 3).filter fun j => lim + j + 2 ≤ len
  match scan.find? fun j => runeStart (rev.getD (j + 1) 0) with
  | some j => len - 2 - j
  | none => lim - 1

/-- Go `utf8.DecodeLastRuneInString`: the last rune of `s` and its width. -/
def decodeLastRune (s : Bytes) : Nat × Nat :=
  match s.reverse with
  | [] => (runeError, 0)
  | last :: rev =>
    if last < 0x80 then (last, 1)
    else
      let start := lastRuneStart (last :: rev) s.length
      let (r, size) := decodeRune (s.drop start)
      if start + size ≠ s.length then (runeError, 1) else (r, size)

/-- Go `unicode.IsSpace`: the Latin-1 spaces and the code points with the
    Unicode White_Space property. -/
def isSpace (r : Nat) : Bool :=
  if r ≤ 0xFF then
    r = 9 ∨ r = 10 ∨ r = 11 ∨ r = 12 ∨ r = 13 ∨ r = 32 ∨ r = 0x85 ∨ r = 0xA0
  else
    r = 0x1680 ∨ (0x2000 ≤ r ∧ r ≤ 0x200A) ∨ r = 0x2028 ∨ r = 0x2029 ∨ r = 0x202F
      ∨ r = 0x205F ∨ r = 0x3000

/-- The table `asciiSpace` of package `strings`. -/
def asciiSpace (c : Nat) : Bool :=
  c = 9 ∨ c = 10 ∨ c = 11 ∨ c = 12 ∨ c = 13 ∨ c = 32

/-! ## `strings.TrimSpace` -/

/-- Go `strings.TrimLeftFunc(s, unicode.IsSpace)`: `fuel` bounds the number of
    runes skipped and is taken as the length of the string. -/
def trimLeftFuel : Nat → Bytes → Bytes
  | 0, s => s
  | fuel + 1, s =>
    match s with
    | [] => []
    | _ :: _ =>
      if isSpace (decodeRune s).1 then trimLeftFuel fuel (s.drop (decodeRune s).2) else s

/-- Go `strings.TrimLeftFunc(s, unicode.IsSpace)`. -/
def trimLeftFunc (s : Bytes) : Bytes := trimLeftFuel s.length s

/-- Go `lastIndexFunc(s, unicode.IsSpace, false)`: the index of the last rune
    that is not a space, scanning the first `i` bytes backwards; `none` is Go's
    `-1`. -/
def lastIndexFuel : Nat → Bytes → Nat → Option Nat
  | 0, _, _ => none
  | fuel + 1, s, i =>
    if i = 0 then none
    else
      let d := decodeLastRune (s.take i)
      if isSpace d.1 then lastIndexFuel fuel s (i - d.2) else some (i - d.2)

/-- Go `strings.TrimRightFunc(s, unicode.IsSpace)`. -/
def trimRightFunc (s : Bytes) : Bytes :=
  match lastIndexFuel s.length s s.length with
  | none => []
  | some i =>
    if 0x80 ≤ s.getD i 0 then s.take (i + (decodeRune (s.drop i)).2) else s.take (i + 1)

/-- The second loop of `strings.TrimSpace`, run on the reversed string: ASCII
    spaces are dropped from the end; a non-ASCII byte hands over to
    `TrimRightFunc`. -/
def trimSpaceTail : Bytes → Bytes
  | [] => []
  | c :: rev =>
    if 0x80 ≤ c then trimRightFunc (c :: rev).reverse
    else if asciiSpace c then trimSpaceTail rev
    else (c :: rev).reverse

/-- Go `strings.TrimSpace`: the first loop drops leading ASCII spaces; a
    non-ASCII byte hands the rest over to `TrimFunc(_, unicode.IsSpace)`. -/
def trimSpace : Bytes → Bytes
  | [] => []
  | c :: s =>
    if 0x80 ≤ c then trimRightFunc (trimLeftFunc (c :: s))
    else if asciiSpace c then trimSpace s
    else trimSpaceTail (c :: s).reverse

/-! ## `strings.SplitN`, `strconv.Atoi`, `fmt` -/

/-- Go `strings.Index(s, sep)` for a one-byte separator: the text before the
    first `sep` and the text after it. -/
def cut (sep : Nat) : Bytes → Option (Bytes × Bytes)
  | [] => none
  | c :: s =>
    if c = sep then some ([], s)
    else
      match cut sep s with
      | none => none
      | some (a, b) => some (c :: a, b)

/-- Go `strings.SplitN(s, sep, n)` for a one-byte separator and `n ≥ 0`: at most
    `n` parts, the last one holding the unsplit remainder. -/
def splitN (s : Bytes) (sep : Nat) : Nat → List Bytes
  | 0 => []
  | 1 => [s]
  | n + 2 =>
    match cut sep s with
    | none => [s]
    | some (a, b) => a :: splitN b sep (n + 1)

/-- An ASCII decimal digit. -/
def isDigit (c : Nat) : Bool := 48 ≤ c ∧ c ≤ 57

/-- Value of a digit string, most significant digit first. -/
def digitsValue (ds : Bytes) : Nat :=
  ds.foldl (fun a d => a * 10 + (d - 48)) 0

/-- Go `strconv.Atoi` on a 64-bit platform: an optional sign, then one or more
    decimal digits, the value within `[-2^63, 2^63)`; `none` is any error
    (`ErrSyntax` or `ErrRange`). -/
def atoi (s : Bytes) : Option Int :=
  match s with
  | [] => none
  | c :: rest =>
    let neg : Bool := c = 45
    let ds := if c = 45 ∨ c = 43 then rest else s
    if ds = [] then none
    else if ds.all isDigit then
      let v := digitsValue ds
      if neg then (if v ≤ 2 ^ 63 then some (-(v : Int)) else none)
      else (if v < 2 ^ 63 then some (v : Int) else none)
    else none

/-- Decimal digits of `n` in front of `acc`; `fuel` bounds the number of digits. -/
def natDigits : Nat → Nat → Bytes → Bytes
  | 0, _, acc => acc
  | fuel + 1, n, acc =>
    if n < 10 then (48 + n) :: acc else natDigits fuel (n / 10) ((48 + n % 10) :: acc)

/-- The decimal numeral of a natural number. -/
def formatNat (n : Nat) : Bytes := natDigits (n + 1) n []

/-- The verb `%d` of package `fmt` for an `int`. -/
def formatInt (n : Int) : Bytes :=
  if n < 0 then 45 :: formatNat n.natAbs else formatNat n.natAbs

/-! ## Maps -/

/-- A Go map: an association list in which every key occurs once. -/
abbrev GoMap (κ α : Type) := List (κ × α)

/-- The assignment `m[k] = v`: overwrites the value of an existing key. -/
def GoMap.set {κ α : Type} [DecidableEq κ] : GoMap κ α → κ → α → GoMap κ α
  | [], k, v => [(k, v)]
  | (k0, v0) :: m, k, v => if k0 = k then (k, v) :: m else (k0, v0) :: GoMap.set m k v

/-- The lookup `v, ok := m[k]`. -/
def GoMap.find {κ α : Type} [DecidableEq κ] : GoMap κ α → κ → Option α
  | [], _ => none
  | (k0, v0) :: m, k => if k0 = k then some v0 else GoMap.find m k

/-- The index expression `m[k]` of a `map[_]string`: the empty string for a
    missing key. -/
def GoMap.get {κ : Type} [DecidableEq κ] (m : GoMap κ Bytes) (k : κ) : Bytes :=
  (GoMap.find m k).getD []

/-! ## The connection and `bufio.Reader` -/

/-- The deliveries of a connection, in order.  One `Read` on the socket returns a
    non-empty initial part of the first delivery (all of it when the slice passed
    is long enough); when no delivery is left `Read` fails. -/
abbrev Conn := List Bytes

/-- The buffer size of `bufio.NewReader` (`defaultBufSize`). -/
def bufSize : Nat := 4096

/-- A `bufio.Reader`: `buf` is the buffered data not consumed yet
    (`b.buf[b.r:b.w]`), `conn` what the connection still has to deliver. -/
structure Reader where
  buf : Bytes
  conn : Conn
deriving DecidableEq, Repr

/-- All bytes a reader will ever yield. -/
def Reader.pending (r : Reader) : Bytes := r.buf ++ r.conn.flatten

/-- How `bufio.Reader.ReadSlice` came back: delimiter found, `ErrBufferFull`, or
    the error of the underlying `Read`. -/
inductive SliceEnd
  | delim
  | bufferFull
  | readErr
deriving DecidableEq, Repr

/-- The part of the `ReadSlice('\n')` loop that needs no new data: the search of
    the buffer for the delimiter, then the test for a full buffer. -/
def sliceBuffered (buf : Bytes) (conn : Conn) : Option (Bytes × SliceEnd × Reader) :=
  match cut 10 buf with
  | some (a, b) => some (a ++ [10], SliceEnd.delim, ⟨b, conn⟩)
  | none =>
    if bufSize ≤ buf.length then some (buf, SliceEnd.bufferFull, ⟨[], conn⟩) else none

/-- Go `bufio.Reader.ReadSlice('\n')`.  Each turn of its loop searches the buffer,
    reports a full buffer, and otherwise calls `fill`, which moves the buffered
    data to the front and reads once into the free space.  A delivery that fits
    the free space is taken whole and the loop goes on; of a longer one only the
    free space is filled, the buffer is then full and the next turn ends the
    loop.  With no delivery left the read error ends the loop and the buffered
    data is returned with it. -/
def readSlice : Conn → Bytes → Bytes × SliceEnd × Reader
  | [], buf =>
    match sliceBuffered buf [] with
    | some res => res
    | none => (buf, SliceEnd.readErr, ⟨[], []⟩)
  | c :: cs, buf =>
    match sliceBuffered buf (c :: cs) with
    | some res => res
    | none =>
      if c.length ≤ bufSize - buf.length then readSlice cs (buf ++ c)
      else
        let buf2 := buf ++ c.take (bufSize - buf.length)
        let conn2 := c.drop (bufSize - buf.length) :: cs
        match cut 10 buf2 with
        | some (a, b) => (a ++ [10], SliceEnd.delim, ⟨b, conn2⟩)
        | none => (buf2, SliceEnd.bufferFull, ⟨[], conn2⟩)

/-- The end of `bufio.Reader.ReadLine`: a final `"\n"` or `"\r\n"` is dropped. -/
def dropEol (line : Bytes) : Bytes :=
  if line.getLast? = some 10 then
    if 1 < line.length ∧ line.dropLast.getLast? = some 13 then line.dropLast.dropLast
    else line.dropLast
  else line

/-- Go `bufio.Reader.ReadLine`: `(line, isPrefix)` and the reader afterwards;
    `none` is an error.  On `ErrBufferFull` the buffer is returned as a first
    part of the line, a final `'\r'` being put back for the next call.  Data
    that ends without a line end is returned without an error. -/
def bufioReadLine (r : Reader) : Option (Bytes × Bool) × Reader :=
  match readSlice r.conn r.buf with
  | (line, SliceEnd.bufferFull, r2) =>
    if line.getLast? = some 13 then (some (line.dropLast, true), ⟨[13], r2.conn⟩)
    else (some (line, true), r2)
  | (line, SliceEnd.readErr, r2) =>
    if line = [] then (none, r2) else (some (dropEol line, false), r2)
  | (line, SliceEnd.delim, r2) => (some (dropEol line, false), r2)

/-- The loop of `textproto.Reader.readLineSlice`: the parts `ReadLine` returns
    are appended until one is not a first part; an error drops what was
    gathered.  Every further turn follows a part of at least `bufSize - 1`
    bytes, so `fuel` above the number of pending bytes is never used up. -/
def readLineLoop : Nat → Bytes → Reader → Option Bytes × Reader
  | 0, _, r => (none, r)
  | fuel + 1, line, r =>
    match bufioReadLine r with
    | (none, r2) => (none, r2)
    | (some (l, more), r2) =>
      if more then readLineLoop fuel (line ++ l) r2 else (some (line ++ l), r2)

/-- Go `textproto.Reader.ReadLine`: one line without its `"\n"` or `"\r\n"`, or
    `none` for an error. -/
def readLine (r : Reader) : Option Bytes × Reader :=
  readLineLoop (r.pending.length + 1) [] r

/-- The first non-empty delivery and the deliveries after it: a `Read` on the
    socket with a non-empty slice blocks until data or an error arrives. -/
def nextDelivery : Conn → Option (Bytes × Conn)
  | [] => none
  | c :: cs => if c = [] then nextDelivery cs else some (c, cs)

/-- Go `bufio.Reader.Read(p)` with `len(p) = n`: the bytes copied into `p`, or
    `none` for an error.  Buffered data is copied first and alone; with an empty
    buffer one `Read` on the connection is made, directly into `p` when `p` is at
    least as long as the buffer, else into the buffer.  For `n = 0` nothing is
    read and no error is pending. -/
def Reader.read (r : Reader) (n : Nat) : Option Bytes :=
  if n = 0 then some []
  else if r.buf = [] then
    match nextDelivery r.conn with
    | none => none
    | some (c, _) => if bufSize ≤ n then some (c.take n) else some ((c.take bufSize).take n)
  else some (r.buf.take n)

/-! ## The program -/

/-- Status codes of `main.go`. -/
def StatusOK : Int := 200

/-- Status code 404. -/
def StatusNotFound : Int := 404

/-- Status code 500. -/
def StatusInternalServerError : Int := 500

/-- The map `statusTexts`. -/
def statusTexts : GoMap Int Bytes :=
  [(StatusOK, bytesOf "OK"), (StatusNotFound, bytesOf "Not Found"),
   (StatusInternalServerError, bytesOf "Internal Server Error")]

/-- The struct `HTTPRequest`. -/
structure HTTPRequest where
  Method : Bytes
  Path : Bytes
  Headers : GoMap Bytes Bytes
  Body : Bytes
deriving DecidableEq, Repr

/-- The struct `HTTPResponse`; a field left out of a composite literal has its
    zero value. -/
structure HTTPResponse where
  StatusCode : Int := 0
  StatusText : Bytes := []
  Headers : GoMap Bytes Bytes := []
  Body : Bytes := []
deriving DecidableEq, Repr

/-- The type `RouteHandler`. -/
abbrev RouteHandler := HTTPRequest → HTTPResponse

/-- The handler `setupRoutes` registers under `"GET /home"`. -/
def homeHandler : RouteHandler := fun _ =>
  { StatusCode := 200,
    Headers := [(bytesOf "Content-Type", bytesOf "text/html")],
    Body := bytesOf "<h1>Home</h1>" }

/-- The handler `setupRoutes` registers under `"POST /api/data"`. -/
def dataHandler : RouteHandler := fun req =>
  { StatusCode := 200,
    Headers := [(bytesOf "Content-Type", bytesOf "application/json")],
    Body := bytesOf "\x7b\"message\": \"Dados recebidos\", \"body\": \"" ++ req.Body
      ++ bytesOf "\"\x7d" }

/-- The function `setupRoutes`: two assignments to the route map. -/
def setupRoutes (routes : GoMap Bytes RouteHandler) : GoMap Bytes RouteHandler :=
  (routes.set (bytesOf "GET /home") homeHandler).set (bytesOf "POST /api/data") dataHandler

/-- The global `routes` once `main` has called `setupRoutes`, which it does before
    it accepts a connection. -/
def routes : GoMap Bytes RouteHandler := setupRoutes []

/-- Lines 120 to 123, the body of the header loop for one non-empty line: the
    line is split at its first colon and, when that gives two parts, the trimmed
    second is stored under the trimmed first. -/
def headerStep (headers : GoMap Bytes Bytes) (headerLine : Bytes) : GoMap Bytes Bytes :=
  match splitN headerLine 58 2 with
  | [name, value] => headers.set (trimSpace name) (trimSpace value)
  | _ => headers

/-- The header loop of `handleConnection` (lines 109 to 124): lines are read until
    one is empty or a read fails; either way the loop is left by `break`.  Every
    line read takes at least one pending byte, so `fuel` above the number of
    pending bytes is never used up. -/
def readHeaders : Nat → GoMap Bytes Bytes → Reader → GoMap Bytes Bytes × Reader
  | 0, headers, r => (headers, r)
  | fuel + 1, headers, r =>
    match readLine r with
    | (none, r2) => (headers, r2)
    | (some headerLine, r2) =>
      if headerLine = [] then (headers, r2)
      else readHeaders fuel (headerStep headers headerLine) r2

/-- How the parsing part of `handleConnection` ends: it returns without a
    response, it panics, or it has built the `HTTPRequest`. -/
inductive Parsed
  | aborted
  | panicked
  | request (req : HTTPRequest)
deriving DecidableEq, Repr

/-- The constant `maxAlloc` of the Go runtime on a 64-bit platform, where
    `heapAddrBits` is 48: the largest number of bytes `makeslice` accepts. -/
def maxAlloc : Nat := 2 ^ 48

/-- Go `make([]byte, len)`, which is `runtime.makeslice` for elements of one
    byte: the length of the new slice, whose bytes are all zero, or `none` for
    the run-time panic `makeslice: len out of range`.  The panic is raised for a
    negative length and for a length above `maxAlloc`, before anything is read.
    A length that `makeslice` accepts is passed to `mallocgc`, which is taken to
    return the memory: a process that cannot get it is ended by the runtime, and
    that is outside this model. -/
def makeslice (len : Int) : Option Nat :=
  if len < 0 ∨ (maxAlloc : Int) < len then none else some len.toNat

/-- Lines 85 to 151 of `handleConnection`, from a reader: the request line, the
    header loop, the body. `make([]byte, contentLength)` panics for a length
    that `makeslice` rejects and else gives `contentLength` zero bytes, of which
    the single `Read` overwrites the first ones. -/
def parseFrom (reader : Reader) : Parsed :=
  match readLine reader with
  | (none, _) => Parsed.aborted
  | (some requestLine, reader) =>
    match splitN requestLine 32 3 with
    | [method, path, _] =>
      let (headers, reader) := readHeaders (reader.pending.length + 1) [] reader
      if headers.get (bytesOf "Content-Length") ≠ [] then
        match atoi (headers.get (bytesOf "Content-Length")) with
        | none => Parsed.aborted
        | some contentLength =>
          match makeslice contentLength with
          | none => Parsed.panicked
          | some len =>
            match reader.read len with
            | none => Parsed.aborted
            | some got =>
              let bodyBytes := got ++ List.replicate (len - got.length) 0
              Parsed.request ⟨method, path, headers, bodyBytes⟩
      else Parsed.request ⟨method, path, headers, []⟩
    | _ => Parsed.aborted

/-- The parsing part of `handleConnection` on a fresh `bufio.NewReader(conn)`. -/
def parseRequest (conn : Conn) : Parsed := parseFrom ⟨[], conn⟩

/-- Lines 153 to 163: the handler registered under `method + " " + path`, or the
    404 response. -/
def dispatch (request : HTTPRequest) : HTTPResponse :=
  match routes.find (request.Method ++ bytesOf " " ++ request.Path) with
  | some handler => handler request
  | none =>
    { StatusCode := StatusNotFound,
      StatusText := statusTexts.get StatusNotFound,
      Headers := [(bytesOf "Content-Type", bytesOf "text/html")],
      Body := bytesOf "<h1>Not Found</h1>" }

/-- Lines 165 to 173: the response string.  The `range` over the header map
    visits the entries in the order of the association list; every response of
    this program has one header. -/
def serialize (response : HTTPResponse) : Bytes :=
  let responseString :=
    bytesOf "HTTP/1.1 " ++ formatInt response.StatusCode ++ bytesOf " " ++ response.StatusText
      ++ bytesOf "\r\n"
  let responseString := response.Headers.foldl
    (fun acc kv => acc ++ (kv.1 ++ bytesOf ": " ++ kv.2 ++ bytesOf "\r\n")) responseString
  let responseString := responseString ++ bytesOf "\r\n"
  if 0 < response.Body.length then responseString ++ response.Body else responseString

/-- What one run of `handleConnection` did: the bytes passed to `conn.Write`, and
    whether the goroutine panicked. -/
structure Outcome where
  written : Bytes
  panicked : Bool
deriving DecidableEq, Repr

/-- The function `handleConnection`. -/
def handleConnection (conn : Conn) : Outcome :=
  match parseRequest conn with
  | Parsed.aborted => ⟨[], false⟩
  | Parsed.panicked => ⟨[], true⟩
  | Parsed.request request => ⟨serialize (dispatch request), false⟩

/-! ## Vocabulary of the specification -/

/-- The request bytes up to and including the empty line: the request line
    `method SP path SP version`, the header lines and the empty line, each ended
    by `"\r\n"`. -/
def requestHead (method path version : Bytes) (headerLines : List Bytes) : Bytes :=
  method ++ 32 :: (path ++ 32 :: version) ++ [13, 10]
    ++ headerLines.flatMap (fun l => l ++ [13, 10]) ++ [13, 10]

/-- The request head with every line ended by a bare `"\n"` instead of `"\r\n"`. -/
def requestHeadLF (method path version : Bytes) (headerLines : List Bytes) : Bytes :=
  method ++ 32 :: (path ++ 32 :: version) ++ [10]
    ++ headerLines.flatMap (fun l => l ++ [10]) ++ [10]

/-- The header name a line sets: the trimmed text before its first colon. -/
def lineName (line : Bytes) : Bytes :=
  trimSpace (line.takeWhile fun c => c != 58)

/-- The header value a line sets: the trimmed text after its first colon. -/
def lineValue (line : Bytes) : Bytes :=
  trimSpace ((line.dropWhile fun c => c != 58).drop 1)

/-- One step of the header fold as the specification words it: a line with a
    colon sets its name to its value, any other line changes nothing. -/
def specStep (m : Bytes → Option Bytes) (line : Bytes) : Bytes → Option Bytes :=
  if 58 ∈ line then Function.update m (lineName line) (some (lineValue line)) else m

/-- The header map of the specification: the left-to-right fold of the lines
    from the empty map. -/
def specHeaders (lines : List Bytes) : Bytes → Option Bytes :=
  lines.foldl specStep fun _ => none

/-- The wire form of a response as the specification words it: the status line,
    one line per header, an empty line, the body. -/
def wireForm (response : HTTPResponse) : Bytes :=
  bytesOf "HTTP/1.1 " ++ formatInt response.StatusCode ++ bytesOf " " ++ response.StatusText
    ++ bytesOf "\r\n"
    ++ response.Headers.flatMap (fun kv => kv.1 ++ bytesOf ": " ++ kv.2 ++ bytesOf "\r\n")
    ++ bytesOf "\r\n" ++ response.Body

/-- A decimal integer: an optional sign, then one or more decimal digits. -/
def isDecimalInteger (v : Bytes) : Bool :=
  match v with
  | [] => false
  | c :: rest =>
    let ds := if c = 45 ∨ c = 43 then rest else v
    ds ≠ [] ∧ ds.all isDigit

/-- A line as `ReadLine` returns it when the text before the `'\n'` is `pre`:
    one final `'\r'` is dropped. -/
def chomp (pre : Bytes) : Bytes :=
  if pre.getLast? = some 13 then pre.dropLast else pre

/-- What `ReadSlice` promises about the line, the way it ended and the reader it
    leaves, for a reader that had `all` pending. -/
def SliceOk (all : Bytes) (res : Bytes × SliceEnd × Reader) : Prop :=
  res.1 ++ res.2.2.pending = all ∧
  (res.2.1 = SliceEnd.delim → ∃ a, res.1 = a ++ [10] ∧ 10 ∉ a) ∧
  (res.2.1 = SliceEnd.bufferFull → 10 ∉ res.1 ∧ bufSize ≤ res.1.length ∧ res.2.2.buf = []) ∧
  (res.2.1 = SliceEnd.readErr → 10 ∉ res.1 ∧ res.2.2 = ⟨[], []⟩)

/-! # Lemmas -/

/-! ## Lemmas: cutting at a byte -/

theorem cut_append_cons (sep : Nat) (a b : Bytes) (h : sep ∉ a) :
    cut sep (a ++ sep :: b) = some (a, b) := by
  induction a with
  | nil => simp [cut]
  | cons c a ih =>
    have hc : c ≠ sep := fun e => h (by simp [e])
    have ha : sep ∉ a := fun e => h (by simp [e])
    simp [cut, hc, ih ha]

theorem cut_eq_none (sep : Nat) (s : Bytes) (h : sep ∉ s) : cut sep s = none := by
  induction s with
  | nil => simp [cut]
  | cons c s ih =>
    have hc : c ≠ sep := fun e => h (by simp [e])
    have hs : sep ∉ s := fun e => h (by simp [e])
    simp [cut, hc, ih hs]

theorem cut_eq_some (sep : Nat) (s a b : Bytes) (h : cut sep s = some (a, b)) :
    s = a ++ sep :: b ∧ sep ∉ a := by
  induction s generalizing a with
  | nil => simp [cut] at h
  | cons c s ih =>
    by_cases hc : c = sep
    · simp [cut, hc] at h
      obtain ⟨rfl, rfl⟩ := h
      simp [hc]
    · simp only [cut, hc, if_false] at h
      cases hcut : cut sep s with
      | none => simp [hcut] at h
      | some p =>
        obtain ⟨a2, b2⟩ := p
        simp [hcut] at h
        obtain ⟨rfl, rfl⟩ := h
        obtain ⟨e, hn⟩ := ih a2 hcut
        refine ⟨by simp [e], ?_⟩
        simp only [List.mem_cons, not_or]
        exact ⟨fun e => hc e.symm, hn⟩

theorem cut_none_not_mem (sep : Nat) (s : Bytes) (h : cut sep s = none) : sep ∉ s := by
  induction s with
  | nil => simp
  | cons c s ih =>
    by_cases hc : c = sep
    · simp [cut, hc] at h
    · simp only [cut, hc, if_false] at h
      cases hcut : cut sep s with
      | none =>
        simp only [List.mem_cons, not_or]
        exact ⟨fun e => hc e.symm, ih hcut⟩
      | some p => simp [hcut] at h

/-- Two ways of writing a string as "text without `sep`, then `sep`" agree. -/
theorem split_unique (sep : Nat) (a b c d : Bytes) (ha : sep ∉ a) (hc : sep ∉ c)
    (h : a ++ sep :: b = c ++ sep :: d) : a = c ∧ b = d := by
  have h1 := cut_append_cons sep a b ha
  have h2 := cut_append_cons sep c d hc
  rw [h] at h1
  rw [h1] at h2
  simpa using h2

/-- A string without `sep` that starts a string with a first `sep` lies before it. -/
theorem before_sep (sep : Nat) (a b c d : Bytes) (ha : sep ∉ a) (hc : sep ∉ c)
    (h : a ++ b = c ++ sep :: d) : ∃ m, c = a ++ m ∧ b = m ++ sep :: d := by
  induction a generalizing c with
  | nil => exact ⟨c, by simp, by simpa using h⟩
  | cons x a ih =>
    cases c with
    | nil =>
      simp at h
      exact absurd (by simp [h.1]) ha
    | cons y c =>
      simp at h
      obtain ⟨rfl, h⟩ := h
      have ha2 : sep ∉ a := fun e => ha (by simp [e])
      have hc2 : sep ∉ c := fun e => hc (by simp [e])
      obtain ⟨m, e1, e2⟩ := ih c ha2 hc2 h
      exact ⟨m, by simp [e1], e2⟩

/-! ## Lemmas: `ReadSlice` -/

theorem sliceBuffered_some (buf : Bytes) (conn : Conn) (res : Bytes × SliceEnd × Reader)
    (h : sliceBuffered buf conn = some res) : SliceOk (buf ++ conn.flatten) res := by
  unfold sliceBuffered at h
  cases hcut : cut 10 buf with
  | some p =>
    obtain ⟨a, b⟩ := p
    simp only [hcut, Option.some.injEq] at h
    obtain ⟨e, hn⟩ := cut_eq_some 10 buf a b hcut
    subst h
    refine ⟨by simp [Reader.pending, e], fun _ => ⟨a, rfl, hn⟩, ?_, ?_⟩ <;> intro hh <;> simp at hh
  | none =>
    simp only [hcut] at h
    by_cases hfull : bufSize ≤ buf.length
    · simp only [hfull, if_true, Option.some.injEq] at h
      subst h
      refine ⟨by simp [Reader.pending], ?_, fun _ => ⟨cut_none_not_mem 10 buf hcut, hfull, rfl⟩, ?_⟩
        <;> intro hh <;> simp at hh
    · simp [hfull] at h

theorem sliceBuffered_none (buf : Bytes) (conn : Conn) (h : sliceBuffered buf conn = none) :
    10 ∉ buf ∧ buf.length < bufSize := by
  unfold sliceBuffered at h
  cases hcut : cut 10 buf with
  | some p => simp [hcut] at h
  | none =>
    simp only [hcut] at h
    by_cases hfull : bufSize ≤ buf.length
    · simp [hfull] at h
    · exact ⟨cut_none_not_mem 10 buf hcut, Nat.lt_of_not_le hfull⟩

theorem readSlice_ok (conn : Conn) (buf : Bytes) :
    SliceOk (buf ++ conn.flatten) (readSlice conn buf) := by
  induction conn generalizing buf with
  | nil =>
    unfold readSlice
    cases hs : sliceBuffered buf [] with
    | some res => simpa using sliceBuffered_some buf [] res hs
    | none =>
      obtain ⟨hn, _⟩ := sliceBuffered_none buf [] hs
      refine ⟨by simp [Reader.pending], ?_, ?_, fun _ => ⟨hn, rfl⟩⟩ <;> intro hh <;> simp at hh
  | cons c cs ih =>
    unfold readSlice
    cases hs : sliceBuffered buf (c :: cs) with
    | some res => simpa using sliceBuffered_some buf (c :: cs) res hs
    | none =>
      obtain ⟨hn, hlt⟩ := sliceBuffered_none buf (c :: cs) hs
      by_cases hfit : c.length ≤ bufSize - buf.length
      · simp only [hfit, if_true]
        have := ih (buf ++ c)
        simpa [List.append_assoc] using this
      · simp only [hfit, if_false]
        have hlen : (buf ++ c.take (bufSize - buf.length)).length = bufSize := by
          simp only [List.length_append, List.length_take]
          omega
        cases hcut : cut 10 (buf ++ c.take (bufSize - buf.length)) with
        | some p =>
          obtain ⟨a, b⟩ := p
          obtain ⟨e, hna⟩ := cut_eq_some 10 _ a b hcut
          refine ⟨?_, fun _ => ⟨a, rfl, hna⟩, ?_, ?_⟩
          · have e2 : a ++ [10] ++ b = buf ++ c.take (bufSize - buf.length) := by simp [e]
            simp only [Reader.pending, List.flatten_cons]
            rw [← List.append_assoc, e2, List.append_assoc, ← List.append_assoc (List.take _ c),
              List.take_append_drop]
          · intro hh; simp at hh
          · intro hh; simp at hh
        | none =>
          refine ⟨?_, ?_, fun _ => ⟨cut_none_not_mem 10 _ hcut, by simp only [hlen]; exact le_refl _, rfl⟩, ?_⟩
          · simp only [Reader.pending, List.flatten_cons, List.nil_append]
            rw [List.append_assoc, ← List.append_assoc (List.take _ c), List.take_append_drop]
          · intro hh; simp at hh
          · intro hh; simp at hh

/-! ## Lemmas: reading a line -/

theorem dropEol_newline (pre : Bytes) : dropEol (pre ++ [10]) = chomp pre := by
  unfold dropEol chomp
  simp only [List.getLast?_concat, if_true, List.dropLast_concat, List.length_append,
    List.length_singleton]
  by_cases h : pre.getLast? = some 13
  · have hne : pre ≠ [] := by
      intro e
      simp [e] at h
    have hl : 1 < pre.length + 1 := by
      have := List.length_pos.mpr hne
      omega
    simp [h, hl]
  · simp [h]

theorem dropEol_of_not_mem (line : Bytes) (h : 10 ∉ line) : dropEol line = line := by
  unfold dropEol
  have : line.getLast? ≠ some 10 := by
    intro e
    exact h (List.mem_of_getLast?_eq_some e)
  simp [this]

theorem chomp_append (l m : Bytes) (h : m ≠ [] ∨ l.getLast? ≠ some 13) :
    chomp (l ++ m) = l ++ chomp m := by
  by_cases hm : m = []
  · subst hm
    have hl : l.getLast? ≠ some 13 := by
      rcases h with h | h
      · exact absurd rfl h
      · exact h
    simp [chomp, hl]
  · unfold chomp
    have e1 : (l ++ m).getLast? = m.getLast? := List.getLast?_append_of_ne_nil l hm
    rw [e1]
    by_cases hc : m.getLast? = some 13
    · simp only [hc, if_true]
      exact List.dropLast_append_of_ne_nil l hm
    · simp [hc]

theorem chomp_concat_cr (l : Bytes) : chomp (l ++ [13]) = l := by
  simp [chomp]

theorem bufioReadLine_line (r : Reader) (pre t : Bytes) (hp : r.pending = pre ++ 10 :: t)
    (hn : 10 ∉ pre) :
    ∃ l more r2, bufioReadLine r = (some (l, more), r2) ∧
      ((more = false ∧ l = chomp pre ∧ r2.pending = t) ∨
       (more = true ∧ ∃ m, pre = l ++ m ∧ m.length < pre.length ∧ r2.pending = m ++ 10 :: t ∧
          (m ≠ [] ∨ l.getLast? ≠ some 13))) := by
  have hs := readSlice_ok r.conn r.buf
  unfold bufioReadLine
  rcases hres : readSlice r.conn r.buf with ⟨line, e, r2⟩
  rw [hres] at hs
  obtain ⟨hall, hdelim, hfull, herr⟩ := hs
  have hall2 : line ++ r2.pending = pre ++ 10 :: t := by
    rw [← hp]; exact hall
  cases e with
  | delim =>
    obtain ⟨a, ea, hna⟩ := hdelim rfl
    simp only at ea
    subst ea
    have h2 : a ++ 10 :: r2.pending = pre ++ 10 :: t := by simpa using hall2
    obtain ⟨e1, e2⟩ := split_unique 10 a r2.pending pre t hna hn h2
    subst e1
    exact ⟨chomp a, false, r2, by simp [dropEol_newline], Or.inl ⟨rfl, rfl, e2⟩⟩
  | bufferFull =>
    obtain ⟨hnl, hlen, hbuf⟩ := hfull rfl
    simp only at hnl hlen hbuf
    obtain ⟨m, e1, e2⟩ := before_sep 10 line r2.pending pre t hnl hn hall2
    have hsz : 2 ≤ line.length := by
      have : bufSize = 4096 := rfl
      omega
    by_cases hcr : line.getLast? = some 13
    · obtain ⟨ys, ey⟩ := List.getLast?_eq_some_iff.mp hcr
      refine ⟨line.dropLast, true, ⟨[13], r2.conn⟩, by simp [hcr], Or.inr ⟨rfl, 13 :: m, ?_, ?_, ?_, ?_⟩⟩
      · rw [e1, ey]; simp
      · rw [e1, ey]
        rw [ey] at hsz
        simp only [List.length_append, List.length_singleton, List.length_cons] at hsz ⊢
        omega
      · have hc : r2.conn.flatten = m ++ 10 :: t := by
          rw [← e2]; simp [Reader.pending, hbuf]
        simp [Reader.pending, hc]
      · exact Or.inl (by simp)
    · refine ⟨line, true, r2, by simp [hcr], Or.inr ⟨rfl, m, e1, ?_, e2, Or.inr hcr⟩⟩
      rw [e1]
      simp only [List.length_append]
      omega
  | readErr =>
    obtain ⟨hnl, hr⟩ := herr rfl
    simp only at hnl hr
    subst hr
    have : line = pre ++ 10 :: t := by simpa [Reader.pending] using hall2
    exact absurd (by simp [this]) hnl

theorem readLineLoop_line (fuel : Nat) (acc : Bytes) (r : Reader) (pre t : Bytes)
    (hp : r.pending = pre ++ 10 :: t) (hn : 10 ∉ pre) (hf : pre.length < fuel) :
    ∃ r2, readLineLoop fuel acc r = (some (acc ++ chomp pre), r2) ∧ r2.pending = t := by
  induction fuel generalizing acc r pre with
  | zero => omega
  | succ fuel ih =>
    obtain ⟨l, more, r2, hb, hcase⟩ := bufioReadLine_line r pre t hp hn
    unfold readLineLoop
    rw [hb]
    rcases hcase with ⟨hm, hl, ht⟩ | ⟨hm, m, e1, hlt, e2, hcr⟩
    · subst hm hl
      exact ⟨r2, by simp, ht⟩
    · subst hm
      have hnm : 10 ∉ m := fun hmem => hn (by rw [e1]; simp [hmem])
      obtain ⟨r3, h3, ht3⟩ := ih (acc ++ l) r2 m e2 hnm (by omega)
      refine ⟨r3, ?_, ht3⟩
      simp only [if_true]
      rw [h3, e1, chomp_append l m hcr, List.append_assoc]

/-- A reader whose pending bytes start with a line and its `'\n'` yields that
    line, however the bytes are delivered. -/
theorem readLine_line (r : Reader) (pre t : Bytes) (hp : r.pending = pre ++ 10 :: t)
    (hn : 10 ∉ pre) : ∃ r2, readLine r = (some (chomp pre), r2) ∧ r2.pending = t := by
  have := readLineLoop_line (r.pending.length + 1) [] r pre t hp hn (by rw [hp]; simp; omega)
  simpa [readLine] using this

/-- The same for a line that ends in `"\r\n"`. -/
theorem readLine_crlf (r : Reader) (l t : Bytes) (hp : r.pending = l ++ 13 :: 10 :: t)
    (hn : 10 ∉ l) : ∃ r2, readLine r = (some l, r2) ∧ r2.pending = t := by
  have h := readLine_line r (l ++ [13]) t (by simp [hp]) (by simp [hn])
  simpa [chomp_concat_cr] using h

/-! ## Lemmas: maps, splitting, the header loop -/

theorem GoMap.find_set {κ α : Type} [DecidableEq κ] (m : GoMap κ α) (k k2 : κ) (v : α) :
    GoMap.find (GoMap.set m k v) k2 = if k = k2 then some v else GoMap.find m k2 := by
  induction m with
  | nil => simp [GoMap.set, GoMap.find]
  | cons p m ih =>
    obtain ⟨k0, v0⟩ := p
    by_cases h0 : k0 = k
    · subst h0
      by_cases h2 : k0 = k2 <;> simp [GoMap.set, GoMap.find, h2]
    · by_cases h2 : k0 = k2
      · subst h2
        have : ¬ k = k0 := fun e => h0 e.symm
        simp [GoMap.set, GoMap.find, h0, this]
      · simp [GoMap.set, GoMap.find, h0, h2, ih]

theorem takeWhile_append_sep (sep : Nat) (a b : Bytes) (h : sep ∉ a) :
    (a ++ sep :: b).takeWhile (fun c => c != sep) = a ∧
    (a ++ sep :: b).dropWhile (fun c => c != sep) = sep :: b := by
  induction a with
  | nil => simp
  | cons c a ih =>
    have hc : c ≠ sep := fun e => h (by simp [e])
    have ha : sep ∉ a := fun e => h (by simp [e])
    obtain ⟨i1, i2⟩ := ih ha
    have hb : (c != sep) = true := by simp [hc]
    simp [List.takeWhile, List.dropWhile, hb, i1, i2]

theorem splitN_two_of_mem (line : Bytes) (h : 58 ∈ line) :
    splitN line 58 2 =
      [line.takeWhile (fun c => c != 58), (line.dropWhile (fun c => c != 58)).drop 1] := by
  cases hc : cut 58 line with
  | none => exact absurd h (cut_none_not_mem 58 line hc)
  | some p =>
    obtain ⟨a, b⟩ := p
    obtain ⟨e, hn⟩ := cut_eq_some 58 line a b hc
    obtain ⟨t1, t2⟩ := takeWhile_append_sep 58 a b hn
    simp only [splitN, hc]
    rw [e, t1, t2]
    simp

theorem splitN_two_of_not_mem (line : Bytes) (h : 58 ∉ line) : splitN line 58 2 = [line] := by
  simp [splitN, cut_eq_none 58 line h]

theorem splitN_three (method path version : Bytes) (hm : 32 ∉ method) (hp : 32 ∉ path) :
    splitN (method ++ 32 :: (path ++ 32 :: version)) 32 3 = [method, path, version] := by
  simp [splitN, cut_append_cons 32 method _ hm, cut_append_cons 32 path _ hp]

theorem splitN_three_inv (line method path version : Bytes)
    (h : splitN line 32 3 = [method, path, version]) :
    line = method ++ 32 :: (path ++ 32 :: version) ∧ 32 ∉ method ∧ 32 ∉ path := by
  simp only [splitN] at h
  cases h1 : cut 32 line with
  | none => simp [h1] at h
  | some p =>
    obtain ⟨a, b⟩ := p
    simp only [h1] at h
    cases h2 : cut 32 b with
    | none => simp [h2] at h
    | some q =>
      obtain ⟨c, d⟩ := q
      simp only [h2, List.cons.injEq, and_true] at h
      obtain ⟨rfl, rfl, rfl⟩ := h
      obtain ⟨e1, n1⟩ := cut_eq_some 32 line a b h1
      obtain ⟨e2, n2⟩ := cut_eq_some 32 b c d h2
      exact ⟨by rw [e1, e2], n1, n2⟩

theorem readHeaders_lines (fuel : Nat) (headers : GoMap Bytes Bytes) (r : Reader)
    (lines : List Bytes) (t : Bytes)
    (hp : r.pending = lines.flatMap (fun l => l ++ [13, 10]) ++ 13 :: 10 :: t)
    (hl : ∀ l ∈ lines, l ≠ [] ∧ 10 ∉ l) (hf : lines.length < fuel) :
    ∃ r2, readHeaders fuel headers r = (lines.foldl headerStep headers, r2) ∧ r2.pending = t := by
  induction lines generalizing fuel headers r with
  | nil =>
    cases fuel with
    | zero => simp at hf
    | succ fuel =>
      obtain ⟨r2, h2, ht⟩ := readLine_crlf r [] t (by simpa using hp) (by simp)
      exact ⟨r2, by simp [readHeaders, h2], ht⟩
  | cons l lines ih =>
    cases fuel with
    | zero => simp at hf
    | succ fuel =>
      obtain ⟨hne, hnl⟩ := hl l (by simp)
      obtain ⟨r2, h2, ht⟩ := readLine_crlf r l
        (lines.flatMap (fun l => l ++ [13, 10]) ++ 13 :: 10 :: t) (by simp [hp]) hnl
      obtain ⟨r3, h3, ht3⟩ := ih fuel (headerStep headers l) r2 ht
        (fun x hx => hl x (by simp [hx])) (by simpa using hf)
      refine ⟨r3, ?_, ht3⟩
      simp only [readHeaders, h2, hne, if_false, List.foldl_cons, h3]

/-! ## Lemmas: the header map -/

theorem find_headerStep (headers : GoMap Bytes Bytes) (line : Bytes) :
    GoMap.find (headerStep headers line) = specStep (GoMap.find headers) line := by
  funext k
  unfold headerStep specStep
  by_cases h : 58 ∈ line
  · rw [splitN_two_of_mem line h]
    simp only [h, if_true, GoMap.find_set, Function.update_apply, lineName, lineValue]
    by_cases hk : trimSpace (List.takeWhile (fun c => c != 58) line) = k
    · simp [hk]
    · have hk2 : ¬ k = trimSpace (List.takeWhile (fun c => c != 58) line) := fun e => hk e.symm
      simp [hk, hk2]
  · rw [splitN_two_of_not_mem line h]
    simp [h]

theorem find_foldl_headerStep (lines : List Bytes) (headers : GoMap Bytes Bytes) :
    GoMap.find (lines.foldl headerStep headers) = lines.foldl specStep (GoMap.find headers) := by
  induction lines generalizing headers with
  | nil => rfl
  | cons l lines ih => simp only [List.foldl_cons, ih, find_headerStep]

/-- Lines that do not set `k` leave its lookup as it was. -/
theorem foldl_specStep_other (lines : List Bytes) (m : Bytes → Option Bytes) (k : Bytes)
    (h : ∀ l ∈ lines, 58 ∈ l → lineName l ≠ k) : lines.foldl specStep m k = m k := by
  induction lines generalizing m with
  | nil => rfl
  | cons l lines ih =>
    rw [List.foldl_cons, ih _ (fun x hx => h x (by simp [hx]))]
    unfold specStep
    by_cases hc : 58 ∈ l
    · have := h l (by simp) hc
      simp [hc, Function.update_apply, Ne.symm this]
    · simp [hc]

theorem length_le_flatMap_crlf (lines : List Bytes) :
    lines.length ≤ (lines.flatMap fun l => l ++ [13, 10]).length := by
  induction lines with
  | nil => simp
  | cons l lines ih =>
    simp only [List.flatMap_cons, List.length_append, List.length_cons, List.length_nil]
    omega

/-! ## Lemmas: numerals -/

theorem digitsValue_concat (ds : Bytes) (d : Nat) :
    digitsValue (ds ++ [d]) = digitsValue ds * 10 + (d - 48) := by
  simp [digitsValue, List.foldl_append]

theorem natDigits_spec (n : Nat) : ∀ fuel acc, n < fuel →
    ∃ ds, natDigits fuel n acc = ds ++ acc ∧ ds ≠ [] ∧ (∀ d ∈ ds, isDigit d = true) ∧
      digitsValue ds = n := by
  induction n using Nat.strong_induction_on with
  | _ n ih =>
    intro fuel acc hf
    cases fuel with
    | zero => omega
    | succ fuel =>
      by_cases h10 : n < 10
      · refine ⟨[48 + n], by simp [natDigits, h10], by simp, ?_, by simp [digitsValue]⟩
        intro d hd
        simp only [List.mem_singleton] at hd
        subst hd
        simp [isDigit]
        omega
      · have hdiv : n / 10 < n := Nat.div_lt_self (by omega) (by decide)
        obtain ⟨ds, e, hne, hdig, hval⟩ := ih (n / 10) hdiv fuel ((48 + n % 10) :: acc) (by omega)
        refine ⟨ds ++ [48 + n % 10], by simp [natDigits, h10, e], by simp, ?_, ?_⟩
        · intro d hd
          simp only [List.mem_append, List.mem_singleton] at hd
          rcases hd with hd | hd
          · exact hdig d hd
          · subst hd
            simp [isDigit]
            omega
        · rw [digitsValue_concat, hval]
          omega

theorem formatNat_spec (n : Nat) :
    formatNat n ≠ [] ∧ (∀ d ∈ formatNat n, isDigit d = true) ∧ digitsValue (formatNat n) = n := by
  obtain ⟨ds, e, hne, hdig, hval⟩ := natDigits_spec n (n + 1) [] (by omega)
  simp only [List.append_nil] at e
  unfold formatNat
  rw [e]
  exact ⟨hne, hdig, hval⟩

theorem atoi_formatNat (n : Nat) (h : n < 2 ^ 63) : atoi (formatNat n) = some (n : Int) := by
  obtain ⟨hne, hdig, hval⟩ := formatNat_spec n
  cases hds : formatNat n with
  | nil => exact absurd hds hne
  | cons c rest =>
    rw [hds] at hdig hval
    have hc := hdig c (by simp)
    simp only [isDigit, decide_eq_true_eq] at hc
    have h45 : c ≠ 45 := by omega
    have h43 : c ≠ 43 := by omega
    have hall : (c :: rest).all isDigit = true := by
      rw [List.all_eq_true]
      exact hdig
    simp only [atoi, h45, h43, or_self, if_false, hall, if_true, hval, h, decide_False]
    simp

theorem atoi_none_of_not_decimal (v : Bytes) (h : isDecimalInteger v = false) :
    atoi v = none := by
  cases v with
  | nil => rfl
  | cons c rest =>
    simp only [isDecimalInteger, decide_eq_false_iff_not, not_and, Bool.not_eq_true, ne_eq] at h
    simp only [atoi]
    by_cases hnil : (if c = 45 ∨ c = 43 then rest else c :: rest) = []
    · simp [hnil]
    · have := h hnil
      simp [hnil, this]

/-! ## Lemmas: routing and serialization -/

theorem routes_eq :
    routes = [(bytesOf "GET /home", homeHandler), (bytesOf "POST /api/data", dataHandler)] := rfl

theorem routes_find (key : Bytes) :
    routes.find key =
      if bytesOf "GET /home" = key then some homeHandler
      else if bytesOf "POST /api/data" = key then some dataHandler else none := by
  rw [routes_eq]
  rfl

theorem foldl_append_eq_flatMap {α : Type} (f : α → Bytes) (l : List α) (init : Bytes) :
    l.foldl (fun acc x => acc ++ f x) init = init ++ l.flatMap f := by
  induction l generalizing init with
  | nil => simp
  | cons x l ih => simp [ih, List.append_assoc]

theorem serialize_eq_wireForm (response : HTTPResponse) :
    serialize response = wireForm response := by
  unfold serialize wireForm
  simp only [foldl_append_eq_flatMap]
  by_cases hb : 0 < response.Body.length
  · simp [hb]
  · have : response.Body = [] := by
      cases hbody : response.Body with
      | nil => rfl
      | cons x xs => simp [hbody] at hb
    simp [this]

theorem serialize_ne_nil (response : HTTPResponse) : serialize response ≠ [] := by
  rw [serialize_eq_wireForm]
  unfold wireForm
  have : bytesOf "HTTP/1.1 " = 72 :: bytesOf "TTP/1.1 " := by decide
  rw [this]
  simp

theorem count_space_of_three (method path version : Bytes) :
    2 ≤ (method ++ 32 :: (path ++ 32 :: version)).count 32 := by
  simp only [List.count_append, List.count_cons_self]
  omega

/-! ## Lemmas: lines that are already buffered -/

theorem readSlice_of_cut (conn : Conn) (buf a b : Bytes) (h : cut 10 buf = some (a, b)) :
    readSlice conn buf = (a ++ [10], SliceEnd.delim, ⟨b, conn⟩) := by
  cases conn <;> simp [readSlice, sliceBuffered, h]

theorem readLine_buffered (r : Reader) (pre t : Bytes) (hb : r.buf = pre ++ 10 :: t)
    (hn : 10 ∉ pre) : readLine r = (some (chomp pre), ⟨t, r.conn⟩) := by
  have hcut : cut 10 r.buf = some (pre, t) := by
    rw [hb]; exact cut_append_cons 10 pre t hn
  simp [readLine, readLineLoop, bufioReadLine, readSlice_of_cut r.conn r.buf pre t hcut,
    dropEol_newline]

theorem readLine_first_delivery (c : Bytes) (cs : Conn) (pre t : Bytes) (hc : c = pre ++ 10 :: t)
    (hn : 10 ∉ pre) (hlen : c.length ≤ bufSize) :
    readLine ⟨[], c :: cs⟩ = (some (chomp pre), ⟨t, cs⟩) := by
  have hcut : cut 10 c = some (pre, t) := by
    rw [hc]; exact cut_append_cons 10 pre t hn
  have hsl : readSlice (c :: cs) [] = (pre ++ [10], SliceEnd.delim, ⟨t, cs⟩) := by
    have h0 : sliceBuffered [] (c :: cs) = none := by
      simp [sliceBuffered, cut, bufSize]
    rw [readSlice, h0]
    simp only [List.length_nil, Nat.sub_zero, hlen, if_true, List.nil_append]
    exact readSlice_of_cut cs c pre t hcut
  simp [readLine, readLineLoop, bufioReadLine, hsl, dropEol_newline]

/-- The first line read from a fresh reader whose first delivery may be longer
    than the buffer: the buffer takes the first `bufSize` bytes of the delivery
    and the rest stays on the connection. -/
theorem readLine_first_delivery_take (c : Bytes) (cs : Conn) (pre t : Bytes)
    (hc : c.take bufSize = pre ++ 10 :: t) (hn : 10 ∉ pre) :
    readLine ⟨[], c :: cs⟩ =
      (some (chomp pre), ⟨t, if c.length ≤ bufSize then cs else c.drop bufSize :: cs⟩) := by
  by_cases hlen : c.length ≤ bufSize
  · rw [List.take_of_length_le hlen] at hc
    simp only [hlen, if_true]
    exact readLine_first_delivery c cs pre t hc hn hlen
  · have hcut : cut 10 (c.take bufSize) = some (pre, t) := by
      rw [hc]; exact cut_append_cons 10 pre t hn
    have hsl : readSlice (c :: cs) [] =
        (pre ++ [10], SliceEnd.delim, ⟨t, c.drop bufSize :: cs⟩) := by
      have h0 : sliceBuffered [] (c :: cs) = none := by
        simp [sliceBuffered, cut, bufSize]
      rw [readSlice, h0]
      simp only [List.length_nil, Nat.sub_zero, hlen, if_false, List.nil_append, hcut]
    simp [readLine, readLineLoop, bufioReadLine, hsl, dropEol_newline, hlen]

theorem readHeaders_buffered (fuel : Nat) (headers : GoMap Bytes Bytes) (r : Reader)
    (lines : List Bytes) (t : Bytes)
    (hb : r.buf = lines.flatMap (fun l => l ++ [13, 10]) ++ 13 :: 10 :: t)
    (hl : ∀ l ∈ lines, l ≠ [] ∧ 10 ∉ l) (hf : lines.length < fuel) :
    readHeaders fuel headers r = (lines.foldl headerStep headers, ⟨t, r.conn⟩) := by
  induction lines generalizing fuel headers r with
  | nil =>
    cases fuel with
    | zero => simp at hf
    | succ fuel =>
      have h2 := readLine_buffered r [13] t (by simpa using hb) (by simp)
      simp [readHeaders, h2, chomp]
  | cons l lines ih =>
    cases fuel with
    | zero => simp at hf
    | succ fuel =>
      obtain ⟨hne, hnl⟩ := hl l (by simp)
      have h2 := readLine_buffered r (l ++ [13])
        (lines.flatMap (fun l => l ++ [13, 10]) ++ 13 :: 10 :: t) (by simp [hb]) (by simp [hnl])
      rw [chomp_concat_cr] at h2
      have h3 := ih fuel (headerStep headers l) ⟨_, r.conn⟩ rfl
        (fun x hx => hl x (by simp [hx])) (by simpa using hf)
      simp only [readHeaders, h2, hne, if_false, List.foldl_cons, h3]

/-! ## Lemmas: the `Content-Length` header and the body read -/

theorem trimSpace_plain (s : Bytes) (h : ∀ d ∈ s, d < 0x80 ∧ asciiSpace d = false) :
    trimSpace s = s := by
  cases s with
  | nil => rfl
  | cons c s =>
    obtain ⟨hc1, hc2⟩ := h c (by simp)
    have hc3 : ¬ 0x80 ≤ c := by omega
    simp only [trimSpace, hc3, if_false, hc2]
    cases hr : (c :: s).reverse with
    | nil => simp at hr
    | cons x rev =>
      have hx : x ∈ c :: s := by
        rw [← List.mem_reverse, hr]; simp
      obtain ⟨hx1, hx2⟩ := h x hx
      have hx3 : ¬ 0x80 ≤ x := by omega
      simp only [trimSpaceTail, hx3, if_false, hx2]
      rw [← hr, List.reverse_reverse]
      simp

theorem digit_plain (d : Nat) (h : isDigit d = true) : d < 0x80 ∧ asciiSpace d = false := by
  simp only [isDigit, decide_eq_true_eq] at h
  refine ⟨by omega, ?_⟩
  simp only [asciiSpace, decide_eq_false_iff_not]
  omega

theorem trimSpace_space_formatNat (n : Nat) : trimSpace (32 :: formatNat n) = formatNat n := by
  have h := trimSpace_plain (formatNat n) (fun d hd => digit_plain d ((formatNat_spec n).2.1 d hd))
  have h32 : asciiSpace 32 = true := by decide
  simp only [trimSpace, h32, if_true]
  simpa using h

theorem headerStep_contentLength (headers : GoMap Bytes Bytes) (n : Nat) :
    headerStep headers (bytesOf "Content-Length: " ++ formatNat n) =
      headers.set (bytesOf "Content-Length") (formatNat n) := by
  have e : bytesOf "Content-Length: " ++ formatNat n =
      bytesOf "Content-Length" ++ 58 :: (32 :: formatNat n) := by
    have : bytesOf "Content-Length: " = bytesOf "Content-Length" ++ [58, 32] := by decide
    rw [this]; simp
  have hcut := cut_append_cons 58 (bytesOf "Content-Length") (32 :: formatNat n) (by decide)
  have hname : trimSpace (bytesOf "Content-Length") = bytesOf "Content-Length" := by decide
  simp only [headerStep, splitN, e, hcut, hname, trimSpace_space_formatNat]

theorem get_contentLength (before after : List Bytes) (n : Nat)
    (hafter : ∀ l ∈ after, 58 ∈ l → lineName l ≠ bytesOf "Content-Length") :
    GoMap.get ((before ++ (bytesOf "Content-Length: " ++ formatNat n) :: after).foldl headerStep [])
      (bytesOf "Content-Length") = formatNat n := by
  unfold GoMap.get
  rw [List.foldl_append, List.foldl_cons, find_foldl_headerStep,
    foldl_specStep_other _ _ _ hafter, headerStep_contentLength, GoMap.find_set]
  simp

theorem read_buffered (b : Bytes) (conn : Conn) :
    Reader.read ⟨b, conn⟩ b.length = some b := by
  cases b with
  | nil => simp [Reader.read]
  | cons x xs => simp [Reader.read]

theorem read_next_delivery (b : Bytes) (conn : Conn) :
    Reader.read ⟨[], b :: conn⟩ b.length = some b := by
  cases b with
  | nil => simp [Reader.read]
  | cons x xs =>
    by_cases h : bufSize ≤ (x :: xs).length
    · have h1 : bufSize ≤ xs.length + 1 := by simpa using h
      simp only [Reader.read, nextDelivery, List.length_cons, h1, if_true]
      simp
    · have h2 : (x :: xs).length ≤ bufSize := by omega
      have h3 : ¬ bufSize ≤ xs.length + 1 := by simpa using h
      simp only [Reader.read, nextDelivery, List.length_cons, h3, if_false]
      simp [List.take_of_length_le h2]

theorem makeslice_natCast (n : Nat) (h : n ≤ maxAlloc) : makeslice (n : Int) = some n := by
  have h1 : ¬ ((n : Int) < 0) := by omega
  have h2 : ¬ ((maxAlloc : Int) < (n : Int)) := by omega
  simp [makeslice, h1, h2]

theorem makeslice_eq_some (c : Int) (len : Nat) (h : makeslice c = some len) :
    c = (len : Int) ∧ len ≤ maxAlloc := by
  unfold makeslice at h
  split at h
  · simp at h
  · simp only [Option.some.injEq] at h
    omega

theorem makeslice_eq_none (c : Int) : makeslice c = none ↔ c < 0 ∨ (maxAlloc : Int) < c := by
  unfold makeslice
  split <;> simp_all

theorem maxAlloc_lt : maxAlloc < 2 ^ 63 := by decide

/-- The length `2^63 - 1` is above `maxAlloc`, and so is `maxAlloc + 1`: the
    allocation panics before the body is read and nothing is written, also when
    body bytes follow; the length `maxAlloc` itself is accepted. -/
theorem oversized_content_length_panics :
    makeslice 9223372036854775807 = none ∧ makeslice 281474976710657 = none ∧
      makeslice 281474976710656 = some 281474976710656 ∧
      handleConnection [bytesOf ("POST /api/data HTTP/1.1\r\n"
        ++ "Content-Length: 9223372036854775807\r\n\r\nhello")] = ⟨[], true⟩ ∧
      handleConnection [bytesOf ("POST /api/data HTTP/1.1\r\n"
        ++ "Content-Length: 9223372036854775807\r\n\r\n")] = ⟨[], true⟩ := by
  decide

theorem nextDelivery_flatten (conn : Conn) (c : Bytes) (cs : Conn)
    (h : nextDelivery conn = some (c, cs)) : conn.flatten = c ++ cs.flatten ∧ c ≠ [] := by
  induction conn with
  | nil => simp [nextDelivery] at h
  | cons d ds ih =>
    by_cases hd : d = []
    · simp only [nextDelivery, hd, if_true] at h
      simpa [hd] using ih h
    · simp only [nextDelivery, hd, if_false, Option.some.injEq, Prod.mk.injEq] at h
      obtain ⟨rfl, rfl⟩ := h
      exact ⟨by simp, hd⟩

/-- The single body read delivers all of `b` when the buffer holds at least
    `len(b)` bytes, or holds none and the next delivery has at least `len(b)`. -/
theorem read_available (r : Reader) (b rest : Bytes) (hp : r.pending = b ++ rest)
    (h : b.length ≤ r.buf.length ∨
      (r.buf = [] ∧ ∃ c cs, nextDelivery r.conn = some (c, cs) ∧ b.length ≤ c.length)) :
    r.read b.length = some b := by
  by_cases hb : b = []
  · simp [hb, Reader.read]
  · have hpos : b.length ≠ 0 := by simpa using hb
    rcases h with h | ⟨hbuf, c, cs, hd, hle⟩
    · have hne : r.buf ≠ [] := by
        intro e
        rw [e] at h
        simp at h
        exact hb h
      have e : r.buf.take b.length = b := by
        have := congrArg (List.take b.length) hp
        rw [Reader.pending, List.take_append_of_le_length h] at this
        simpa using this
      simp only [Reader.read, hpos, if_false, hne, e]
    · obtain ⟨hf, _⟩ := nextDelivery_flatten r.conn c cs hd
      have e : c.take b.length = b := by
        have := congrArg (List.take b.length) hp
        rw [Reader.pending, hbuf, List.nil_append, hf, List.take_append_of_le_length hle] at this
        simpa using this
      simp only [Reader.read, hpos, if_false, hbuf, if_true, hd]
      split
      · rw [e]
      · rw [List.take_take, Nat.min_eq_left (by omega), e]

/-- A request head that arrives at the start of the first delivery, within the
    buffer size, and declares `Content-Length: n`: parsing ends with the single
    body read on the reader whose buffer holds what followed the head in the
    first `bufSize` bytes of that delivery. -/
theorem parseRequest_contentLength (method path version : Bytes) (lines : List Bytes) (n : Nat)
    (x : Bytes) (cs : Conn) (hm : 32 ∉ method ∧ 10 ∉ method) (hp : 32 ∉ path ∧ 10 ∉ path)
    (hv : 10 ∉ version) (hl : ∀ l ∈ lines, l ≠ [] ∧ 10 ∉ l)
    (hget : GoMap.get (lines.foldl headerStep []) (bytesOf "Content-Length") = formatNat n)
    (hn : n ≤ maxAlloc)
    (hc : (requestHead method path version lines).length ≤ bufSize) :
    parseRequest ((requestHead method path version lines ++ x) :: cs) =
      match Reader.read ⟨x.take (bufSize - (requestHead method path version lines).length),
          if (requestHead method path version lines ++ x).length ≤ bufSize then cs
          else x.drop (bufSize - (requestHead method path version lines).length) :: cs⟩ n with
      | none => Parsed.aborted
      | some got =>
        Parsed.request ⟨method, path, lines.foldl headerStep [],
          got ++ List.replicate (n - got.length) 0⟩ := by
  have hline : 10 ∉ method ++ 32 :: (path ++ 32 :: version) ++ [13] := by
    simp [hm.2, hp.2, hv]
  generalize hxt : x.take (bufSize - (requestHead method path version lines).length) = xt
  generalize hxd : x.drop (bufSize - (requestHead method path version lines).length) = xd
  have htake : (requestHead method path version lines ++ x).take bufSize =
      (method ++ 32 :: (path ++ 32 :: version) ++ [13]) ++ 10 ::
        (lines.flatMap (fun l => l ++ [13, 10]) ++ 13 :: 10 :: xt) := by
    rw [List.take_append_eq_append_take, List.take_of_length_le hc, hxt]
    simp [requestHead]
  have hdrop : (requestHead method path version lines ++ x).drop bufSize = xd := by
    rw [List.drop_append_eq_append_drop, List.drop_of_length_le hc, hxd]
    simp
  have h1 := readLine_first_delivery_take (requestHead method path version lines ++ x) cs
    (method ++ 32 :: (path ++ 32 :: version) ++ [13])
    (lines.flatMap (fun l => l ++ [13, 10]) ++ 13 :: 10 :: xt) htake hline
  rw [chomp_concat_cr, hdrop] at h1
  generalize hconn :
    (if (requestHead method path version lines ++ x).length ≤ bufSize then cs else xd :: cs)
      = conn2 at h1 ⊢
  have h2 := readHeaders_buffered
    ((Reader.mk (lines.flatMap (fun l => l ++ [13, 10]) ++ 13 :: 10 :: xt) conn2).pending.length + 1)
    [] ⟨lines.flatMap (fun l => l ++ [13, 10]) ++ 13 :: 10 :: xt, conn2⟩ lines xt rfl hl
    (by
      have := length_le_flatMap_crlf lines
      simp only [Reader.pending, List.length_append]
      omega)
  have hne : formatNat n ≠ [] := (formatNat_spec n).1
  have hn63 : n < 2 ^ 63 := Nat.lt_of_le_of_lt hn maxAlloc_lt
  unfold parseRequest parseFrom
  rw [h1]
  simp only [splitN_three method path version hm.1 hp.1, h2, hget, ne_eq, hne, not_false_eq_true,
    if_true, atoi_formatNat n hn63, makeslice_natCast n hn]

/-- A non-empty buffer that is no longer than the slice passed is copied whole. -/
theorem read_buffer_short (buf : Bytes) (conn : Conn) (n : Nat) (hne : buf ≠ [])
    (hn : buf.length ≤ n) : Reader.read ⟨buf, conn⟩ n = some buf := by
  have h0 : n ≠ 0 := by
    intro e
    rw [e] at hn
    exact hne (List.length_eq_zero.mp (Nat.le_zero.mp hn))
  simp only [Reader.read, h0, if_false, hne, List.take_of_length_le hn]

/-- A head within the buffer size followed in the same delivery by more than
    the buffer has room for: the body is the part `xt` the buffer took, padded
    with zero bytes. -/
theorem parseRequest_body_cut (method path version : Bytes) (lines : List Bytes) (n : Nat)
    (x : Bytes) (cs : Conn) (hm : 32 ∉ method ∧ 10 ∉ method) (hp : 32 ∉ path ∧ 10 ∉ path)
    (hv : 10 ∉ version) (hl : ∀ l ∈ lines, l ≠ [] ∧ 10 ∉ l)
    (hget : GoMap.get (lines.foldl headerStep []) (bytesOf "Content-Length") = formatNat n)
    (hn : n ≤ maxAlloc)
    (hc : (requestHead method path version lines).length ≤ bufSize)
    (xt : Bytes) (m : Nat)
    (hxt : x.take (bufSize - (requestHead method path version lines).length) = xt)
    (hne : xt ≠ []) (hle : xt.length ≤ n) (hsub : n - xt.length = m) :
    parseRequest ((requestHead method path version lines ++ x) :: cs) =
      Parsed.request ⟨method, path, lines.foldl headerStep [], xt ++ List.replicate m 0⟩ := by
  rw [parseRequest_contentLength method path version lines n x cs hm hp hv hl hget hn hc, hxt,
    read_buffer_short xt _ n hne hle]
  simp only [hsub]

/-- A buffer that took the first `k` bytes of `b ++ x`, with `len(b) ≤ k`, gives
    all of `b` to a read of `len(b)` bytes. -/
theorem read_take (b x : Bytes) (k : Nat) (conn : Conn) (hk : b.length ≤ k) :
    Reader.read ⟨(b ++ x).take k, conn⟩ b.length = some b := by
  have e : (b ++ x).take k = b ++ x.take (k - b.length) := by
    rw [List.take_append_eq_append_take, List.take_of_length_le hk]
  rw [e]
  exact read_available ⟨b ++ x.take (k - b.length), conn⟩ b (x.take (k - b.length) ++ conn.flatten)
    (by simp [Reader.pending]) (Or.inl (by simp))

/-- A delivery that starts with `b` gives all of `b` to a read of `len(b)` bytes
    on an empty buffer. -/
theorem read_delivery_prefix (b x : Bytes) (conn : Conn) :
    Reader.read ⟨[], (b ++ x) :: conn⟩ b.length = some b := by
  by_cases hb : b = []
  · simp [hb, Reader.read]
  · have hne : b ++ x ≠ [] := by simp [hb]
    exact read_available ⟨[], (b ++ x) :: conn⟩ b (x ++ conn.flatten)
      (by simp [Reader.pending])
      (Or.inr ⟨rfl, b ++ x, conn, by simp [nextDelivery, hb], by simp⟩)

/-- A key `method + " " + path` with no space in `method` that is registered is
    one of the two keys of `setupRoutes`, part by part. -/
theorem registered_key_fields (method path : Bytes) (handler : RouteHandler) (hm : 32 ∉ method)
    (h : routes.find (method ++ bytesOf " " ++ path) = some handler) :
    (method = bytesOf "GET" ∧ path = bytesOf "/home") ∨
      (method = bytesOf "POST" ∧ path = bytesOf "/api/data") := by
  rw [routes_find] at h
  have e : method ++ bytesOf " " ++ path = method ++ 32 :: path := by
    have : bytesOf " " = [32] := by decide
    rw [this]
    simp
  rw [e] at h
  by_cases h1 : bytesOf "GET /home" = method ++ 32 :: path
  · left
    have e1 : bytesOf "GET /home" = bytesOf "GET" ++ 32 :: bytesOf "/home" := by decide
    rw [e1] at h1
    obtain ⟨a, b⟩ := split_unique 32 _ _ _ _ (by decide) hm h1
    exact ⟨a.symm, b.symm⟩
  · rw [if_neg h1] at h
    by_cases h2 : bytesOf "POST /api/data" = method ++ 32 :: path
    · right
      have e2 : bytesOf "POST /api/data" = bytesOf "POST" ++ 32 :: bytesOf "/api/data" := by
        decide
      rw [e2] at h2
      obtain ⟨a, b⟩ := split_unique 32 _ _ _ _ (by decide) hm h2
      exact ⟨a.symm, b.symm⟩
    · rw [if_neg h2] at h
      simp at h

/-! ## Lemmas: what a parsed request is made of -/

/-- A request built by the parsing part carries the first two parts of the request
    line and the map the header loop returned. -/
theorem parseFrom_request (r : Reader) (request : HTTPRequest)
    (h : parseFrom r = Parsed.request request) :
    ∃ requestLine reader version, readLine r = (some requestLine, reader) ∧
      splitN requestLine 32 3 = [request.Method, request.Path, version] ∧
      request.Headers = (readHeaders (reader.pending.length + 1) [] reader).1 ∧
      (GoMap.get request.Headers (bytesOf "Content-Length") = [] → request.Body = []) := by
  unfold parseFrom at h
  rcases hrl : readLine r with ⟨line, r1⟩
  rw [hrl] at h
  cases line with
  | none => simp at h
  | some requestLine =>
    dsimp only at h
    split at h
    · next m p v hsplit =>
      rcases hrh : readHeaders (r1.pending.length + 1) [] r1 with ⟨headers, r2⟩
      rw [hrh] at h
      dsimp only at h
      refine ⟨requestLine, r1, v, rfl, ?_⟩
      rw [hrh]
      by_cases hcl : GoMap.get headers (bytesOf "Content-Length") = []
      · simp only [hcl, ne_eq, not_true_eq_false, if_false, Parsed.request.injEq] at h
        subst h
        exact ⟨hsplit, rfl, fun _ => rfl⟩
      · simp only [ne_eq, hcl, not_false_eq_true, if_true] at h
        split at h
        · simp at h
        · next contentLength _ =>
          split at h
          · simp at h
          · split at h
            · simp at h
            · simp only [Parsed.request.injEq] at h
              subst h
              exact ⟨hsplit, rfl, fun hc => absurd hc hcl⟩
    · simp at h

/-! ## Lemmas: the fuel of the two loops is never used up -/

theorem bufioReadLine_progress (r : Reader) (l : Bytes) (more : Bool) (r2 : Reader)
    (h : bufioReadLine r = (some (l, more), r2)) : r2.pending.length < r.pending.length := by
  have hs := readSlice_ok r.conn r.buf
  unfold bufioReadLine at h
  rcases hres : readSlice r.conn r.buf with ⟨line, e, r3⟩
  rw [hres] at hs h
  obtain ⟨hall, hdelim, hfull, herr⟩ := hs
  have hlen : line.length + r3.pending.length = r.pending.length := by
    have := congrArg List.length hall
    simpa [Reader.pending] using this
  cases e with
  | delim =>
    obtain ⟨a, ea, _⟩ := hdelim rfl
    simp only at ea
    simp only [Prod.mk.injEq, Option.some.injEq] at h
    obtain ⟨_, rfl⟩ := h
    rw [ea] at hlen
    simp only [List.length_append, List.length_singleton] at hlen
    omega
  | bufferFull =>
    obtain ⟨_, hsz, hbuf⟩ := hfull rfl
    simp only at hsz hbuf
    have hb : bufSize = 4096 := rfl
    by_cases hcr : line.getLast? = some 13
    · simp only [hcr, if_true, Prod.mk.injEq, Option.some.injEq] at h
      obtain ⟨_, rfl⟩ := h
      have : r3.pending = r3.conn.flatten := by simp [Reader.pending, hbuf]
      simp only [Reader.pending, List.length_append, List.length_singleton] at this hlen ⊢
      rw [hbuf] at hlen
      simp only [List.length_nil] at hlen
      omega
    · simp only [hcr, if_false, Prod.mk.injEq, Option.some.injEq] at h
      obtain ⟨_, rfl⟩ := h
      omega
  | readErr =>
    obtain ⟨_, hr⟩ := herr rfl
    simp only at hr
    by_cases hnil : line = []
    · simp [hnil] at h
    · simp only [hnil, if_false, Prod.mk.injEq, Option.some.injEq] at h
      obtain ⟨_, rfl⟩ := h
      have := List.length_pos.mpr hnil
      omega

theorem readLineLoop_fuel (f1 : Nat) : ∀ (f2 : Nat) (acc : Bytes) (r : Reader),
    r.pending.length < f1 → r.pending.length < f2 →
    readLineLoop f1 acc r = readLineLoop f2 acc r := by
  induction f1 with
  | zero => intro f2 acc r h1; omega
  | succ f1 ih =>
    intro f2 acc r h1 h2
    cases f2 with
    | zero => omega
    | succ f2 =>
      unfold readLineLoop
      rcases hb : bufioReadLine r with ⟨res, r2⟩
      cases res with
      | none => rfl
      | some p =>
        obtain ⟨l, more⟩ := p
        have hlt := bufioReadLine_progress r l more r2 hb
        cases more with
        | false => rfl
        | true =>
          simp only [if_true]
          exact ih f2 (acc ++ l) r2 (by omega) (by omega)

theorem readLineLoop_progress (fuel : Nat) : ∀ (acc : Bytes) (r : Reader) (l : Bytes)
    (r2 : Reader), readLineLoop fuel acc r = (some l, r2) →
    r2.pending.length < r.pending.length := by
  induction fuel with
  | zero => intro acc r l r2 h; simp [readLineLoop] at h
  | succ fuel ih =>
    intro acc r l r2 h
    unfold readLineLoop at h
    rcases hb : bufioReadLine r with ⟨res, r3⟩
    rw [hb] at h
    cases res with
    | none => simp at h
    | some p =>
      obtain ⟨l1, more⟩ := p
      have hlt := bufioReadLine_progress r l1 more r3 hb
      cases more with
      | false =>
        simp only [Bool.false_eq_true, if_false, Prod.mk.injEq, Option.some.injEq] at h
        obtain ⟨_, rfl⟩ := h
        exact hlt
      | true =>
        simp only [if_true] at h
        have := ih (acc ++ l1) r3 l r2 h
        omega

/-- Every line read takes at least one pending byte. -/
theorem readLine_progress (r : Reader) (l : Bytes) (r2 : Reader)
    (h : readLine r = (some l, r2)) : r2.pending.length < r.pending.length :=
  readLineLoop_progress _ [] r l r2 h

/-- More fuel than the reader has pending bytes does not change a line read. -/
theorem readLine_fuel (fuel : Nat) (r : Reader) (h : r.pending.length < fuel) :
    readLineLoop fuel [] r = readLine r :=
  readLineLoop_fuel fuel (r.pending.length + 1) [] r h (by omega)

/-- More fuel than the reader has pending bytes does not change the header loop. -/
theorem readHeaders_fuel (f1 : Nat) : ∀ (f2 : Nat) (headers : GoMap Bytes Bytes) (r : Reader),
    r.pending.length < f1 → r.pending.length < f2 →
    readHeaders f1 headers r = readHeaders f2 headers r := by
  induction f1 with
  | zero => intro f2 headers r h1; omega
  | succ f1 ih =>
    intro f2 headers r h1 h2
    cases f2 with
    | zero => omega
    | succ f2 =>
      unfold readHeaders
      rcases hb : readLine r with ⟨res, r2⟩
      cases res with
      | none => rfl
      | some l =>
        have hlt := readLine_progress r l r2 hb
        by_cases hl : l = []
        · simp [hl]
        · simp only [hl, if_false]
          exact ih f2 _ r2 (by omega) (by omega)

/-! ## Lemmas: the parsing part, step by step -/

/-- The parsing part once the request line, its three parts and the result of the
    header loop are known. -/
theorem parseFrom_eq (r : Reader) (requestLine : Bytes) (reader : Reader)
    (method path version : Bytes) (headers : GoMap Bytes Bytes) (reader2 : Reader)
    (h1 : readLine r = (some requestLine, reader))
    (h2 : splitN requestLine 32 3 = [method, path, version])
    (h3 : readHeaders (reader.pending.length + 1) [] reader = (headers, reader2)) :
    parseFrom r =
      if headers.get (bytesOf "Content-Length") ≠ [] then
        match atoi (headers.get (bytesOf "Content-Length")) with
        | none => Parsed.aborted
        | some contentLength =>
          match makeslice contentLength with
          | none => Parsed.panicked
          | some len =>
            match reader2.read len with
            | none => Parsed.aborted
            | some got =>
              Parsed.request ⟨method, path, headers, got ++ List.replicate (len - got.length) 0⟩
      else Parsed.request ⟨method, path, headers, []⟩ := by
  unfold parseFrom
  rw [h1]
  simp only [h2, h3]

theorem read_length_le (r : Reader) (n : Nat) (got : Bytes) (h : r.read n = some got) :
    got.length ≤ n := by
  unfold Reader.read at h
  split at h
  · simp only [Option.some.injEq] at h
    subst h
    simp
  · split at h
    · split at h
      · simp at h
      · split at h <;>
        · simp only [Option.some.injEq] at h
          subst h
          simp only [List.length_take]
          omega
    · simp only [Option.some.injEq] at h
      subst h
      simp only [List.length_take]
      omega

theorem read_eq_none_iff (r : Reader) (n : Nat) :
    r.read n = none ↔ 0 < n ∧ r.buf = [] ∧ nextDelivery r.conn = none := by
  unfold Reader.read
  by_cases hn : n = 0
  · simp [hn]
  · by_cases hb : r.buf = []
    · cases hd : nextDelivery r.conn with
      | none => simp [hn, hb]; omega
      | some p =>
        simp only [hn, hb, if_false, if_true]
        split <;> simp
    · simp [hn, hb]

/-- A request built by the parsing part has an empty body when the header map has
    no `Content-Length` value; otherwise the value is a numeral of some `n ≥ 0`
    and the body is what the single read delivered, padded with zero bytes to
    length `n`. -/
theorem parseFrom_request_body (r : Reader) (request : HTTPRequest)
    (h : parseFrom r = Parsed.request request) :
    (GoMap.get request.Headers (bytesOf "Content-Length") = [] ∧ request.Body = []) ∨
    (GoMap.get request.Headers (bytesOf "Content-Length") ≠ [] ∧
      ∃ (n : Nat) (got : Bytes) (requestLine : Bytes) (reader reader2 : Reader),
        atoi (GoMap.get request.Headers (bytesOf "Content-Length")) = some (n : Int) ∧
        readLine r = (some requestLine, reader) ∧
        readHeaders (reader.pending.length + 1) [] reader = (request.Headers, reader2) ∧
        reader2.read n = some got ∧
        request.Body = got ++ List.replicate (n - got.length) 0) := by
  obtain ⟨requestLine, reader, version, h1, h2, h3, h4⟩ := parseFrom_request r request h
  rcases hrh : readHeaders (reader.pending.length + 1) [] reader with ⟨headers, reader2⟩
  rw [hrh] at h3
  dsimp only at h3
  by_cases hcl : GoMap.get request.Headers (bytesOf "Content-Length") = []
  · exact Or.inl ⟨hcl, h4 hcl⟩
  · right
    refine ⟨hcl, ?_⟩
    rw [parseFrom_eq r requestLine reader _ _ version headers reader2 h1 h2 hrh, ← h3] at h
    simp only [ne_eq, hcl, not_false_eq_true, if_true] at h
    cases hat : atoi (GoMap.get request.Headers (bytesOf "Content-Length")) with
    | none => simp [hat] at h
    | some contentLength =>
      simp only [hat] at h
      cases hmk : makeslice contentLength with
      | none => simp [hmk] at h
      | some len =>
        simp only [hmk] at h
        cases hrd : reader2.read len with
        | none => simp [hrd] at h
        | some got =>
          simp only [hrd, Parsed.request.injEq] at h
          refine ⟨len, got, requestLine, reader, reader2, ?_, h1, ?_, hrd, ?_⟩
          · rw [(makeslice_eq_some contentLength len hmk).1]
          · rw [hrh, h3]
          · rw [← h]

theorem serialize_starts (response : HTTPResponse) :
    ∃ tail, serialize response = bytesOf "HTTP/1.1 " ++ tail := by
  rw [serialize_eq_wireForm]
  unfold wireForm
  refine ⟨formatInt response.StatusCode ++ (bytesOf " " ++ (response.StatusText ++
    (bytesOf "\r\n" ++ (response.Headers.flatMap
      (fun kv => kv.1 ++ bytesOf ": " ++ kv.2 ++ bytesOf "\r\n") ++
      (bytesOf "\r\n" ++ response.Body))))), ?_⟩
  simp only [List.append_assoc]

theorem handleConnection_of_request (conn : Conn) (request : HTTPRequest)
    (h : parseRequest conn = Parsed.request request) :
    handleConnection conn = ⟨serialize (dispatch request), false⟩ := by
  unfold handleConnection
  rw [h]

/-! ## Lemmas: a final carriage return and `TrimSpace` -/

theorem decodeRune_cons (s0 : Nat) (t : Bytes) :
    decodeRune (s0 :: t) =
      if s0 < 0x80 then (s0, 1)
      else if s0 < 0xC2 ∨ 0xF4 < s0 then (runeError, 1)
      else decodeTail (if s0 < 0xE0 then 2 else if s0 < 0xF0 then 3 else 4)
        (if s0 = 0xE0 then 0xA0 else if s0 = 0xF0 then 0x90 else 0x80)
        (if s0 = 0xED then 0x9F else if s0 = 0xF4 then 0x8F else 0xBF) s0 t := rfl

theorem decodeTail_size (sz lo hi s0 : Nat) (t : Bytes) (hsz : 2 ≤ sz ∧ sz ≤ 4) :
    1 ≤ (decodeTail sz lo hi s0 t).2 ∧ (decodeTail sz lo hi s0 t).2 ≤ t.length + 1 := by
  obtain rfl | rfl | rfl : sz = 2 ∨ sz = 3 ∨ sz = 4 := by omega
  all_goals
    rcases t with _ | ⟨s1, _ | ⟨s2, _ | ⟨s3, t3⟩⟩⟩ <;>
    simp only [decodeTail, List.length_cons, List.length_nil] <;>
    split_ifs <;> simp

theorem decodeTail_append_cr2 (lo hi s0 : Nat) (t : Bytes) (hlo : 0x80 ≤ lo) :
    decodeTail 2 lo hi s0 (t ++ [13]) = decodeTail 2 lo hi s0 t := by
  rcases t with _ | ⟨s1, _ | ⟨s2, _ | ⟨s3, t3⟩⟩⟩ <;>
  simp only [decodeTail, List.length_cons, List.length_nil, List.cons_append, List.nil_append,
    List.length_append] <;>
  split_ifs <;> first | (exfalso; omega) | rfl

theorem decodeTail_append_cr3 (lo hi s0 : Nat) (t : Bytes) :
    decodeTail 3 lo hi s0 (t ++ [13]) = decodeTail 3 lo hi s0 t := by
  rcases t with _ | ⟨s1, _ | ⟨s2, _ | ⟨s3, t3⟩⟩⟩ <;>
  simp only [decodeTail, List.length_cons, List.length_nil, List.cons_append, List.nil_append,
    List.length_append] <;>
  split_ifs <;> first | (exfalso; omega) | rfl

theorem decodeTail_append_cr4 (lo hi s0 : Nat) (t : Bytes) :
    decodeTail 4 lo hi s0 (t ++ [13]) = decodeTail 4 lo hi s0 t := by
  rcases t with _ | ⟨s1, _ | ⟨s2, _ | ⟨s3, t3⟩⟩⟩ <;>
  simp only [decodeTail, List.length_cons, List.length_nil, List.cons_append, List.nil_append,
    List.length_append] <;>
  split_ifs <;> first | (exfalso; omega) | rfl

theorem decodeTail_append_cr (sz lo hi s0 : Nat) (t : Bytes) (hsz : 2 ≤ sz ∧ sz ≤ 4)
    (hlo : 0x80 ≤ lo) :
    decodeTail sz lo hi s0 (t ++ [13]) = decodeTail sz lo hi s0 t := by
  obtain rfl | rfl | rfl : sz = 2 ∨ sz = 3 ∨ sz = 4 := by omega
  · exact decodeTail_append_cr2 lo hi s0 t hlo
  · exact decodeTail_append_cr3 lo hi s0 t
  · exact decodeTail_append_cr4 lo hi s0 t

theorem decodeRune_size (z : Bytes) (h : z ≠ []) :
    1 ≤ (decodeRune z).2 ∧ (decodeRune z).2 ≤ z.length := by
  cases z with
  | nil => exact absurd rfl h
  | cons s0 t =>
    rw [decodeRune_cons]
    by_cases h1 : s0 < 0x80
    · simp [h1]
    · by_cases h2 : s0 < 0xC2 ∨ 0xF4 < s0
      · simp [h1, h2]
      · simp only [h1, h2, if_false, List.length_cons]
        apply decodeTail_size
        split_ifs <;> omega

theorem decodeRune_append_cr (z : Bytes) (h : z ≠ []) :
    decodeRune (z ++ [13]) = decodeRune z := by
  cases z with
  | nil => exact absurd rfl h
  | cons s0 t =>
    rw [List.cons_append, decodeRune_cons, decodeRune_cons]
    by_cases h1 : s0 < 0x80
    · simp [h1]
    · by_cases h2 : s0 < 0xC2 ∨ 0xF4 < s0
      · simp [h1, h2]
      · simp only [h1, h2, if_false]
        apply decodeTail_append_cr
        · split_ifs <;> omega
        · split_ifs <;> omega

theorem trimLeftFuel_append_cr (f : Nat) : ∀ z : Bytes, z.length ≤ f →
    trimLeftFuel (f + 1) (z ++ [13]) =
      if trimLeftFuel f z = [] then [] else trimLeftFuel f z ++ [13] := by
  induction f with
  | zero =>
    intro z hz
    have : z = [] := List.length_eq_zero.mp (by omega)
    subst this
    decide
  | succ f ih =>
    intro z hz
    cases z with
    | nil =>
      have hsp : isSpace (decodeRune [13]).1 = true := by decide
      have hdr : List.drop (decodeRune [13]).2 [13] = [] := by decide
      simp [trimLeftFuel, hsp, hdr]
    | cons c z =>
      have hne : c :: z ≠ [] := by simp
      obtain ⟨hk1, hk2⟩ := decodeRune_size (c :: z) hne
      have hdec := decodeRune_append_cr (c :: z) hne
      rw [List.cons_append] at hdec ⊢
      rw [trimLeftFuel, trimLeftFuel]
      simp only [hdec]
      by_cases hsp : isSpace (decodeRune (c :: z)).1 = true
      · simp only [hsp, if_true]
        have hdrop : (c :: (z ++ [13])).drop (decodeRune (c :: z)).2 =
            (c :: z).drop (decodeRune (c :: z)).2 ++ [13] := by
          rw [← List.cons_append]
          exact List.drop_append_of_le_length hk2
        rw [hdrop]
        apply ih
        simp only [List.length_drop, List.length_cons] at hz hk2 ⊢
        omega
      · simp [hsp]

theorem trimLeftFunc_append_cr (z : Bytes) :
    trimLeftFunc (z ++ [13]) = if trimLeftFunc z = [] then [] else trimLeftFunc z ++ [13] := by
  unfold trimLeftFunc
  rw [List.length_append, List.length_singleton]
  exact trimLeftFuel_append_cr z.length z (le_refl _)

theorem decodeLastRune_concat_cr (y : Bytes) : decodeLastRune (y ++ [13]) = (13, 1) := by
  unfold decodeLastRune
  simp

theorem lastRuneStart_lt (rev : Bytes) (len : Nat) (h : 0 < len) : lastRuneStart rev len < len := by
  unfold lastRuneStart
  dsimp only
  split <;> omega

theorem decodeLastRune_size (s : Bytes) (h : s ≠ []) : 1 ≤ (decodeLastRune s).2 := by
  unfold decodeLastRune
  cases hr : s.reverse with
  | nil => simp at hr; exact absurd hr h
  | cons last rev =>
    dsimp only
    by_cases hl : last < 0x80
    · simp [hl]
    · simp only [hl, if_false]
      have hlt := lastRuneStart_lt (last :: rev) s.length (List.length_pos.mpr h)
      split
      · simp
      · rename_i heq
        simp only [ne_eq, not_not] at heq
        omega

theorem lastIndexFuel_lt (fuel : Nat) : ∀ (s : Bytes) (i j : Nat), i ≤ s.length →
    lastIndexFuel fuel s i = some j → j < i := by
  induction fuel with
  | zero => intro s i j _ h; simp [lastIndexFuel] at h
  | succ fuel ih =>
    intro s i j hi h
    unfold lastIndexFuel at h
    by_cases h0 : i = 0
    · simp [h0] at h
    · simp only [h0, if_false] at h
      have hne : s.take i ≠ [] := by
        intro e
        have := congrArg List.length e
        simp only [List.length_take, List.length_nil] at this
        omega
      have hsz := decodeLastRune_size (s.take i) hne
      split at h
      · have := ih s _ j (by omega) h
        omega
      · simp only [Option.some.injEq] at h
        omega

theorem lastIndexFuel_append (fuel : Nat) : ∀ (s t : Bytes) (i : Nat), i ≤ s.length →
    lastIndexFuel fuel (s ++ t) i = lastIndexFuel fuel s i := by
  induction fuel with
  | zero => intro s t i _; rfl
  | succ fuel ih =>
    intro s t i hi
    unfold lastIndexFuel
    by_cases h0 : i = 0
    · simp [h0]
    · simp only [h0, if_false, List.take_append_of_le_length hi]
      rw [ih s t _ (by omega)]

theorem trimRightFunc_append_cr (y : Bytes) : trimRightFunc (y ++ [13]) = trimRightFunc y := by
  have hstep : lastIndexFuel (y ++ [13]).length (y ++ [13]) (y ++ [13]).length =
      lastIndexFuel y.length y y.length := by
    rw [List.length_append, List.length_singleton, lastIndexFuel]
    have htake : (y ++ [13]).take (y.length + 1) = y ++ [13] :=
      List.take_of_length_le (by simp)
    have hsp : isSpace 13 = true := by decide
    simp only [Nat.succ_ne_zero, if_false, htake, decodeLastRune_concat_cr, hsp, if_true,
      Nat.add_sub_cancel]
    exact lastIndexFuel_append y.length y [13] y.length (le_refl _)
  unfold trimRightFunc
  rw [hstep]
  cases hidx : lastIndexFuel y.length y y.length with
  | none => rfl
  | some j =>
    have hj := lastIndexFuel_lt y.length y y.length j (le_refl _) hidx
    have hget : (y ++ [13]).getD j 0 = y.getD j 0 := by
      simp [List.getD_eq_getElem?_getD, List.getElem?_append_left hj]
    have hdropne : y.drop j ≠ [] := by
      intro e
      have := congrArg List.length e
      simp only [List.length_drop, List.length_nil] at this
      omega
    have hdrop : (y ++ [13]).drop j = y.drop j ++ [13] :=
      List.drop_append_of_le_length (by omega)
    obtain ⟨_, hk2⟩ := decodeRune_size (y.drop j) hdropne
    simp only [List.length_drop] at hk2
    dsimp only
    rw [hget, hdrop, decodeRune_append_cr _ hdropne]
    split
    · exact List.take_append_of_le_length (by omega)
    · exact List.take_append_of_le_length (by omega)

/-- `TrimSpace` does not see a carriage return at the end. -/
theorem trimSpace_append_cr (s : Bytes) : trimSpace (s ++ [13]) = trimSpace s := by
  induction s with
  | nil => decide
  | cons c s ih =>
    rw [List.cons_append]
    by_cases h80 : 0x80 ≤ c
    · simp only [trimSpace, h80, if_true]
      rw [← List.cons_append, trimLeftFunc_append_cr]
      by_cases he : trimLeftFunc (c :: s) = []
      · simp [he]
      · simp only [he, if_false]
        exact trimRightFunc_append_cr _
    · by_cases hsp : asciiSpace c = true
      · simp only [trimSpace, h80, if_false, hsp, if_true]
        exact ih
      · simp only [trimSpace, h80, if_false, hsp]
        rw [← List.cons_append, List.reverse_append]
        have h13 : asciiSpace 13 = true := by decide
        simp [trimSpaceTail, h13]

theorem headerStep_append_cr (headers : GoMap Bytes Bytes) (l : Bytes) :
    headerStep headers (l ++ [13]) = headerStep headers l := by
  unfold headerStep
  cases hc : cut 58 l with
  | none =>
    have hn := cut_none_not_mem 58 l hc
    have hn2 : 58 ∉ l ++ [13] := by simp [hn]
    simp [splitN, hc, cut_eq_none 58 _ hn2]
  | some p =>
    obtain ⟨a, b⟩ := p
    obtain ⟨e, hna⟩ := cut_eq_some 58 l a b hc
    have hc2 : cut 58 (l ++ [13]) = some (a, b ++ [13]) := by
      rw [e, List.append_assoc, List.cons_append]
      exact cut_append_cons 58 a (b ++ [13]) hna
    simp [splitN, hc, hc2, trimSpace_append_cr]

theorem headerStep_chomp (headers : GoMap Bytes Bytes) (l : Bytes) :
    headerStep headers (chomp l) = headerStep headers l := by
  unfold chomp
  by_cases h : l.getLast? = some 13
  · obtain ⟨ys, ey⟩ := List.getLast?_eq_some_iff.mp h
    simp only [h, if_true]
    rw [ey, List.dropLast_concat, headerStep_append_cr]
  · simp [h]

theorem chomp_ne_nil (l : Bytes) (h1 : l ≠ []) (h2 : l ≠ [13]) : chomp l ≠ [] := by
  unfold chomp
  by_cases h : l.getLast? = some 13
  · obtain ⟨ys, ey⟩ := List.getLast?_eq_some_iff.mp h
    simp only [h, if_true]
    rw [ey, List.dropLast_concat]
    intro e
    exact h2 (by rw [ey, e]; rfl)
  · simpa [h] using h1

/-! ## Lemmas: lines ended by a bare line feed -/

theorem length_le_flatMap_lf (lines : List Bytes) :
    lines.length ≤ (lines.flatMap fun l => l ++ [10]).length := by
  induction lines with
  | nil => simp
  | cons l lines ih =>
    simp only [List.flatMap_cons, List.length_append, List.length_cons, List.length_nil]
    omega

theorem readHeaders_lines_lf (fuel : Nat) (headers : GoMap Bytes Bytes) (r : Reader)
    (lines : List Bytes) (t : Bytes)
    (hp : r.pending = lines.flatMap (fun l => l ++ [10]) ++ 10 :: t)
    (hl : ∀ l ∈ lines, l ≠ [] ∧ l ≠ [13] ∧ 10 ∉ l) (hf : lines.length < fuel) :
    ∃ r2, readHeaders fuel headers r = (lines.foldl headerStep headers, r2) ∧ r2.pending = t := by
  induction lines generalizing fuel headers r with
  | nil =>
    cases fuel with
    | zero => simp at hf
    | succ fuel =>
      obtain ⟨r2, h2, ht⟩ := readLine_line r [] t (by simpa using hp) (by simp)
      exact ⟨r2, by simp [readHeaders, h2, chomp], ht⟩
  | cons l lines ih =>
    cases fuel with
    | zero => simp at hf
    | succ fuel =>
      obtain ⟨hne, hcr, hnl⟩ := hl l (by simp)
      obtain ⟨r2, h2, ht⟩ := readLine_line r l
        (lines.flatMap (fun l => l ++ [10]) ++ 10 :: t) (by simp [hp]) hnl
      obtain ⟨r3, h3, ht3⟩ := ih fuel (headerStep headers l) r2 ht
        (fun x hx => hl x (by simp [hx])) (by simpa using hf)
      refine ⟨r3, ?_, ht3⟩
      simp only [readHeaders, h2, chomp_ne_nil l hne hcr, if_false, List.foldl_cons,
        headerStep_chomp, h3]

/-! ## Lemmas: the fuel of the trimming loops is never used up -/

theorem trimLeftFuel_fuel (f1 : Nat) : ∀ (f2 : Nat) (s : Bytes),
    s.length ≤ f1 → s.length ≤ f2 → trimLeftFuel f1 s = trimLeftFuel f2 s := by
  induction f1 with
  | zero =>
    intro f2 s h1 _
    have : s = [] := List.length_eq_zero.mp (by omega)
    subst this
    cases f2 <;> rfl
  | succ f1 ih =>
    intro f2 s h1 h2
    cases s with
    | nil => cases f2 <;> rfl
    | cons c s =>
      cases f2 with
      | zero => simp at h2
      | succ f2 =>
        obtain ⟨hk1, _⟩ := decodeRune_size (c :: s) (by simp)
        simp only [trimLeftFuel]
        split
        · apply ih
          · simp only [List.length_drop, List.length_cons] at h1 ⊢
            omega
          · simp only [List.length_drop, List.length_cons] at h2 ⊢
            omega
        · rfl

theorem lastIndexFuel_fuel (f1 : Nat) : ∀ (f2 : Nat) (s : Bytes) (i : Nat),
    i ≤ s.length → i ≤ f1 → i ≤ f2 → lastIndexFuel f1 s i = lastIndexFuel f2 s i := by
  induction f1 with
  | zero =>
    intro f2 s i _ h1 _
    have : i = 0 := by omega
    subst this
    cases f2 <;> simp [lastIndexFuel]
  | succ f1 ih =>
    intro f2 s i hi h1 h2
    by_cases h0 : i = 0
    · subst h0
      cases f2 <;> simp [lastIndexFuel]
    · cases f2 with
      | zero => omega
      | succ f2 =>
        have hne : s.take i ≠ [] := by
          intro e
          have := congrArg List.length e
          simp only [List.length_take, List.length_nil] at this
          omega
        have hsz := decodeLastRune_size (s.take i) hne
        simp only [lastIndexFuel, h0, if_false]
        split
        · exact ih f2 s _ (by omega) (by omega) (by omega)
        · rfl


/-! ## The claims -/

/-- C1.  A well-formed request (request line of three space-separated parts, header
    lines and an empty line, all ended by CRLF, no header named `Content-Length`)
    whose key `method + " " + path` is neither `"GET /home"` nor `"POST /api/data"`
    is answered with exactly the 404 bytes, however the bytes are delivered and
    whatever follows the empty line. -/
theorem unregistered_route_gets_404 (conn : Conn) (method path version : Bytes)
    (headerLines : List Bytes) (rest : Bytes)
    (hconn : conn.flatten = requestHead method path version headerLines ++ rest)
    (hm : 32 ∉ method ∧ 10 ∉ method) (hp : 32 ∉ path ∧ 10 ∉ path) (hv : 10 ∉ version)
    (hh : ∀ l ∈ headerLines, l ≠ [] ∧ 10 ∉ l ∧ (58 ∈ l → lineName l ≠ bytesOf "Content-Length"))
    (hk1 : method ++ bytesOf " " ++ path ≠ bytesOf "GET /home")
    (hk2 : method ++ bytesOf " " ++ path ≠ bytesOf "POST /api/data") :
    handleConnection conn =
      ⟨bytesOf "HTTP/1.1 404 Not Found\r\nContent-Type: text/html\r\n\r\n<h1>Not Found</h1>",
        false⟩ := by
  have hline : 10 ∉ method ++ 32 :: (path ++ 32 :: version) := by
    simp [hm.2, hp.2, hv]
  obtain ⟨r1, h1, hp1⟩ := readLine_crlf ⟨[], conn⟩ (method ++ 32 :: (path ++ 32 :: version))
    (headerLines.flatMap (fun l => l ++ [13, 10]) ++ 13 :: 10 :: rest)
    (by simp [Reader.pending, hconn, requestHead]) hline
  obtain ⟨r2, h2, _⟩ := readHeaders_lines (r1.pending.length + 1) [] r1 headerLines rest hp1
    (fun l hl => ⟨(hh l hl).1, (hh l hl).2.1⟩)
    (by
      rw [hp1]
      have := length_le_flatMap_crlf headerLines
      simp only [List.length_append]
      omega)
  have hget : GoMap.get (headerLines.foldl headerStep []) (bytesOf "Content-Length") = [] := by
    unfold GoMap.get
    rw [find_foldl_headerStep, foldl_specStep_other _ _ _ (fun l hl => (hh l hl).2.2)]
    rfl
  have hfind : routes.find (method ++ bytesOf " " ++ path) = none := by
    rw [routes_find, if_neg (Ne.symm hk1), if_neg (Ne.symm hk2)]
  unfold handleConnection parseRequest parseFrom
  rw [h1]
  simp only [splitN_three method path version hm.1 hp.1, h2, hget, ne_eq, not_true_eq_false,
    if_false, dispatch, hfind]
  decide

/-- Witness of C1: the request `"DELETE /nope HTTP/1.1\r\n\r\n"` in one delivery. -/
theorem unregistered_route_gets_404_witness :
    handleConnection [bytesOf "DELETE /nope HTTP/1.1\r\n\r\n"] =
      ⟨bytesOf "HTTP/1.1 404 Not Found\r\nContent-Type: text/html\r\n\r\n<h1>Not Found</h1>",
        false⟩ :=
  unregistered_route_gets_404 [bytesOf "DELETE /nope HTTP/1.1\r\n\r\n"] (bytesOf "DELETE")
    (bytesOf "/nope") (bytesOf "HTTP/1.1") [] [] (by decide) (by decide) (by decide) (by decide)
    (by simp) (by decide) (by decide)

/-- C2.  When parsing has built a request whose key is registered, the bytes
    written are the wire form of the response the registered handler returns for
    that request: status line, one line per header, empty line, body. -/
theorem registered_route_writes_handler_response (conn : Conn) (request : HTTPRequest)
    (handler : RouteHandler) (hparse : parseRequest conn = Parsed.request request)
    (hroute : routes.find (request.Method ++ bytesOf " " ++ request.Path) = some handler) :
    handleConnection conn = ⟨wireForm (handler request), false⟩ := by
  unfold handleConnection
  rw [hparse]
  simp only [dispatch, hroute, serialize_eq_wireForm]

/-- Witness of C2: `"GET /home HTTP/1.1\r\n\r\n"` is parsed and routed to the
    handler of `"GET /home"`. -/
theorem registered_route_writes_handler_response_witness :
    parseRequest [bytesOf "GET /home HTTP/1.1\r\n\r\n"]
        = Parsed.request ⟨bytesOf "GET", bytesOf "/home", [], []⟩ ∧
      handleConnection [bytesOf "GET /home HTTP/1.1\r\n\r\n"]
        = ⟨wireForm (homeHandler ⟨bytesOf "GET", bytesOf "/home", [], []⟩), false⟩ :=
  ⟨by decide,
   registered_route_writes_handler_response [bytesOf "GET /home HTTP/1.1\r\n\r\n"]
     ⟨bytesOf "GET", bytesOf "/home", [], []⟩ homeHandler (by decide) rfl⟩

/-- C3, evaluated: for `"GET /home HTTP/1.1\r\n\r\n"` the status line written is
    `"HTTP/1.1 200 \r\n"`, with an empty reason phrase, and not
    `"HTTP/1.1 200 OK\r\n"`: `statusTexts` is consulted for the 404 response
    only. -/
theorem home_response_has_empty_reason_phrase :
    handleConnection [bytesOf "GET /home HTTP/1.1\r\n\r\n"] =
        ⟨bytesOf "HTTP/1.1 200 \r\nContent-Type: text/html\r\n\r\n<h1>Home</h1>", false⟩ ∧
      (handleConnection [bytesOf "GET /home HTTP/1.1\r\n\r\n"]).written ≠
        bytesOf "HTTP/1.1 200 OK\r\nContent-Type: text/html\r\n\r\n<h1>Home</h1>" ∧
      statusTexts.get StatusOK = bytesOf "OK" := by
  decide

/-- C4, refuted as stated: a request line of four tokens, and one of two tokens
    with a doubled space, are both answered. -/
theorem extra_tokens_are_answered :
    handleConnection [bytesOf "GET /home HTTP/1.1 extra\r\n\r\n"] =
        ⟨bytesOf "HTTP/1.1 200 \r\nContent-Type: text/html\r\n\r\n<h1>Home</h1>", false⟩ ∧
      handleConnection [bytesOf "GET  /home\r\n\r\n"] =
        ⟨bytesOf "HTTP/1.1 404 Not Found\r\nContent-Type: text/html\r\n\r\n<h1>Not Found</h1>",
          false⟩ := by
  decide

/-- C4, amended.  A request line with fewer than two space characters splits into
    fewer than three parts, and `handleConnection` returns with zero bytes
    written, whatever follows the line. -/
theorem short_request_line_writes_nothing (conn : Conn) (requestLine : Bytes) (reader : Reader)
    (hline : readLine ⟨[], conn⟩ = (some requestLine, reader))
    (hcount : requestLine.count 32 < 2) :
    (splitN requestLine 32 3).length < 3 ∧ handleConnection conn = ⟨[], false⟩ := by
  have hnot : ∀ m p v, splitN requestLine 32 3 ≠ [m, p, v] := by
    intro m p v h
    obtain ⟨e, _, _⟩ := splitN_three_inv requestLine m p v h
    have := count_space_of_three m p v
    rw [← e] at this
    omega
  constructor
  · simp only [splitN]
    cases h1 : cut 32 requestLine with
    | none => simp
    | some p1 =>
      obtain ⟨a, b⟩ := p1
      cases h2 : cut 32 b with
      | none => simp [h2]
      | some p2 =>
        obtain ⟨c, d⟩ := p2
        exact absurd (by simp [splitN, h1, h2]) (hnot a c d)
  · have hparse : parseFrom ⟨[], conn⟩ = Parsed.aborted := by
      unfold parseFrom
      rw [hline]
      dsimp only
      split
      · next m p v h => exact absurd h (hnot m p v)
      · rfl
    unfold handleConnection parseRequest
    rw [hparse]

/-- Witness of C4 (amended): the request line `"GET /home"`. -/
theorem short_request_line_writes_nothing_witness :
    (bytesOf "GET /home").count 32 < 2 ∧
      (splitN (bytesOf "GET /home") 32 3).length < 3 ∧
      handleConnection [bytesOf "GET /home\r\nHost: x\r\n\r\n"] = ⟨[], false⟩ :=
  ⟨by decide,
   short_request_line_writes_nothing [bytesOf "GET /home\r\nHost: x\r\n\r\n"] (bytesOf "GET /home")
     ⟨bytesOf "Host: x\r\n\r\n", []⟩ (by decide) (by decide)⟩

/-- C5, refuted as stated: the head and a body of 5000 bytes in one delivery.
    The reader's buffer takes the first 4096 bytes of the delivery, 49 of the
    head and 4047 of the body; the single body read copies those 4047 bytes and
    the last 953 bytes of `Body` stay zero. -/
theorem long_body_is_cut_short :
    parseRequest [bytesOf "POST /api/data HTTP/1.1\r\nContent-Length: 5000\r\n\r\n"
        ++ List.replicate 5000 97] =
      Parsed.request ⟨bytesOf "POST", bytesOf "/api/data",
        [(bytesOf "Content-Length", bytesOf "5000")],
        List.replicate 4047 97 ++ List.replicate 953 0⟩ ∧
      List.replicate 4047 97 ++ List.replicate 953 0 ≠ List.replicate 5000 97 := by
  constructor
  · have hhead : requestHead (bytesOf "POST") (bytesOf "/api/data") (bytesOf "HTTP/1.1")
        [bytesOf "Content-Length: 5000"] =
        bytesOf "POST /api/data HTTP/1.1\r\nContent-Length: 5000\r\n\r\n" := by decide
    have hfold : [bytesOf "Content-Length: 5000"].foldl headerStep [] =
        [(bytesOf "Content-Length", bytesOf "5000")] := by decide
    have h49 : (requestHead (bytesOf "POST") (bytesOf "/api/data") (bytesOf "HTTP/1.1")
        [bytesOf "Content-Length: 5000"]).length = 49 := by decide
    have h4047 : bufSize - 49 = 4047 := by decide
    have hmin : min 4047 5000 = 4047 := by decide
    have hxt : (List.replicate 5000 97).take (bufSize - (requestHead (bytesOf "POST")
        (bytesOf "/api/data") (bytesOf "HTTP/1.1") [bytesOf "Content-Length: 5000"]).length) =
        List.replicate 4047 97 := by
      rw [h49, h4047, List.take_replicate, hmin]
    have hne : List.replicate 4047 97 ≠ [] := by
      intro e
      have h := congrArg List.length e
      rw [List.length_replicate, List.length_nil] at h
      exact absurd h (by decide)
    have key := parseRequest_body_cut (bytesOf "POST") (bytesOf "/api/data")
      (bytesOf "HTTP/1.1") [bytesOf "Content-Length: 5000"] 5000 (List.replicate 5000 97) []
      (by decide) (by decide) (by decide) (by decide) (by decide) (by decide) (by decide)
      (List.replicate 4047 97) 953 hxt hne (by rw [List.length_replicate]; decide)
      (by rw [List.length_replicate])
    rw [hhead, hfold] at key
    exact key
  · intro e
    have h : (0 : Nat) ∈ List.replicate 4047 97 ++ List.replicate 953 0 := by
      rw [List.mem_append, List.mem_replicate, List.mem_replicate]
      exact Or.inr ⟨by decide, rfl⟩
    rw [e, List.mem_replicate] at h
    exact absurd h.2 (by decide)

/-- C5, amended.  A request with a valid request line, header lines of which the
    last one named `Content-Length` reads `Content-Length: N`, the empty line and
    then the `N` bytes `b`, with `N` at most `maxAlloc`, is parsed into an
    `HTTPRequest` whose `Body` is `b` when the single body read has all of `b` at
    hand: after the header loop the reader's buffer holds at least `N` bytes, or
    it holds none and the next delivery has at least `N` bytes.  This is so
    however the connection delivers the request; in particular when head and
    body lie in the first `bufSize` bytes of the first delivery, and when the
    head is the first delivery and `b` starts the second. -/
theorem body_is_the_declared_bytes (method path version : Bytes) (before after : List Bytes)
    (b : Bytes) (hm : 32 ∉ method ∧ 10 ∉ method) (hp : 32 ∉ path ∧ 10 ∉ path)
    (hv : 10 ∉ version) (hbefore : ∀ l ∈ before, l ≠ [] ∧ 10 ∉ l)
    (hafter : ∀ l ∈ after,
      l ≠ [] ∧ 10 ∉ l ∧ (58 ∈ l → lineName l ≠ bytesOf "Content-Length"))
    (hlen : b.length ≤ maxAlloc) (lines : List Bytes)
    (hlines : lines = before ++ (bytesOf "Content-Length: " ++ formatNat b.length) :: after) :
    (∀ (conn : Conn) (rest : Bytes),
        conn.flatten = requestHead method path version lines ++ (b ++ rest) →
        ∃ requestLine reader reader2,
          readLine ⟨[], conn⟩ = (some requestLine, reader) ∧
          readHeaders (reader.pending.length + 1) [] reader =
            (lines.foldl headerStep [], reader2) ∧
          reader2.pending = b ++ rest ∧
          ((b.length ≤ reader2.buf.length ∨
              (reader2.buf = [] ∧
                ∃ c cs, nextDelivery reader2.conn = some (c, cs) ∧ b.length ≤ c.length)) →
            parseRequest conn =
              Parsed.request ⟨method, path, lines.foldl headerStep [], b⟩)) ∧
      (∀ (x : Bytes) (more : Conn),
        (requestHead method path version lines ++ b).length ≤ bufSize →
        parseRequest ((requestHead method path version lines ++ (b ++ x)) :: more) =
          Parsed.request ⟨method, path, lines.foldl headerStep [], b⟩) ∧
      (∀ (x : Bytes) (more : Conn),
        (requestHead method path version lines).length ≤ bufSize →
        parseRequest (requestHead method path version lines :: (b ++ x) :: more) =
          Parsed.request ⟨method, path, lines.foldl headerStep [], b⟩) := by
  have hl : ∀ l ∈ lines, l ≠ [] ∧ 10 ∉ l := by
    intro l hmem
    rw [hlines] at hmem
    simp only [List.mem_append, List.mem_cons] at hmem
    rcases hmem with h | h | h
    · exact hbefore l h
    · subst h
      have hd := (formatNat_spec b.length).2.1
      constructor
      · simp [(formatNat_spec b.length).1]
      · have h10 : 10 ∉ bytesOf "Content-Length: " := by decide
        have h10b : 10 ∉ formatNat b.length := by
          intro hmem
          have := hd 10 hmem
          simp [isDigit] at this
        simp [h10, h10b]
    · exact ⟨(hafter l h).1, (hafter l h).2.1⟩
  have hget : GoMap.get (lines.foldl headerStep []) (bytesOf "Content-Length")
      = formatNat b.length := by
    rw [hlines]
    exact get_contentLength before after b.length (fun l h => (hafter l h).2.2)
  have hne : formatNat b.length ≠ [] := (formatNat_spec b.length).1
  have hn63 : b.length < 2 ^ 63 := Nat.lt_of_le_of_lt hlen maxAlloc_lt
  refine ⟨?_, ?_, ?_⟩
  · intro conn rest hconn
    have hline : 10 ∉ method ++ 32 :: (path ++ 32 :: version) := by
      simp [hm.2, hp.2, hv]
    obtain ⟨r1, h1, hp1⟩ := readLine_crlf ⟨[], conn⟩ (method ++ 32 :: (path ++ 32 :: version))
      (lines.flatMap (fun l => l ++ [13, 10]) ++ 13 :: 10 :: (b ++ rest))
      (by simp [Reader.pending, hconn, requestHead]) hline
    obtain ⟨r2, h2, hp2⟩ := readHeaders_lines (r1.pending.length + 1) [] r1 lines (b ++ rest) hp1
      hl
      (by
        rw [hp1]
        have := length_le_flatMap_crlf lines
        simp only [List.length_append]
        omega)
    refine ⟨_, r1, r2, h1, h2, hp2, ?_⟩
    intro hav
    unfold parseRequest
    rw [parseFrom_eq _ _ r1 method path version _ r2 h1
      (splitN_three method path version hm.1 hp.1) h2]
    simp only [hget, ne_eq, hne, not_false_eq_true, if_true, atoi_formatNat _ hn63,
      makeslice_natCast _ hlen, read_available r2 b rest hp2 hav]
    simp
  · intro x more hc
    have hc2 : (requestHead method path version lines).length ≤ bufSize := by
      rw [List.length_append] at hc
      omega
    rw [parseRequest_contentLength method path version lines b.length (b ++ x) more hm hp hv hl
      hget hlen hc2, read_take b x _ _ (by rw [List.length_append] at hc; omega)]
    simp
  · intro x more hc
    have h := parseRequest_contentLength method path version lines b.length [] ((b ++ x) :: more)
      hm hp hv hl hget hlen hc
    rw [List.append_nil] at h
    rw [h]
    simp only [List.take_nil, hc, if_true, read_delivery_prefix]
    simp

/-- Witness of C5 (amended): the body `"hello"` after
    `"POST /api/data HTTP/1.1\r\nContent-Length: 5\r\n\r\n"`, with the request in
    one delivery, with the head split over two deliveries, and with the body as
    a delivery of its own. -/
theorem body_is_the_declared_bytes_witness :
    parseRequest [bytesOf "POST /api/data HTTP/1.1\r\nContent-Length: 5\r\n\r\nhello"] =
        Parsed.request ⟨bytesOf "POST", bytesOf "/api/data",
          [(bytesOf "Content-Length", bytesOf "5")], bytesOf "hello"⟩ ∧
      parseRequest [bytesOf "POST /api/data HT",
          bytesOf "TP/1.1\r\nContent-Length: 5\r\n\r\nhello"] =
        Parsed.request ⟨bytesOf "POST", bytesOf "/api/data",
          [(bytesOf "Content-Length", bytesOf "5")], bytesOf "hello"⟩ ∧
      parseRequest [bytesOf "POST /api/data HTTP/1.1\r\nContent-Length: 5\r\n\r\n",
          bytesOf "hello"] =
        Parsed.request ⟨bytesOf "POST", bytesOf "/api/data",
          [(bytesOf "Content-Length", bytesOf "5")], bytesOf "hello"⟩ := by
  have h := body_is_the_declared_bytes (bytesOf "POST") (bytesOf "/api/data")
    (bytesOf "HTTP/1.1") [] [] (bytesOf "hello") (by decide) (by decide) (by decide) (by simp)
    (by simp) (by decide) [bytesOf "Content-Length: 5"] (by decide)
  refine ⟨h.2.1 [] [] (by decide), ?_, h.2.2 [] [] (by decide)⟩
  obtain ⟨requestLine, reader, reader2, h1, h2, _, himp⟩ :=
    h.1 [bytesOf "POST /api/data HT", bytesOf "TP/1.1\r\nContent-Length: 5\r\n\r\nhello"] []
      (by decide)
  have e1 : readLine ⟨[], [bytesOf "POST /api/data HT",
      bytesOf "TP/1.1\r\nContent-Length: 5\r\n\r\nhello"]⟩ =
      (some (bytesOf "POST /api/data HTTP/1.1"),
        ⟨bytesOf "Content-Length: 5\r\n\r\nhello", []⟩) := by decide
  rw [e1] at h1
  simp only [Prod.mk.injEq, Option.some.injEq] at h1
  obtain ⟨_, rfl⟩ := h1
  have e2 : readHeaders
      ((Reader.mk (bytesOf "Content-Length: 5\r\n\r\nhello") []).pending.length + 1) []
      ⟨bytesOf "Content-Length: 5\r\n\r\nhello", []⟩ =
      ([(bytesOf "Content-Length", bytesOf "5")], ⟨bytesOf "hello", []⟩) := by decide
  rw [e2] at h2
  simp only [Prod.mk.injEq] at h2
  obtain ⟨_, rfl⟩ := h2
  exact himp (Or.inl (by decide))

/-- C6, refuted as stated: the line `Content-Length:` has an empty value, which is
    not a decimal integer, and the request is answered. -/
theorem empty_content_length_is_answered :
    handleConnection [bytesOf "GET /home HTTP/1.1\r\nContent-Length:\r\n\r\n"] =
        ⟨bytesOf "HTTP/1.1 200 \r\nContent-Type: text/html\r\n\r\n<h1>Home</h1>", false⟩ ∧
      isDecimalInteger (bytesOf "") = false := by
  decide

/-- C6, amended.  When the header map holds a non-empty `Content-Length` value
    that is not a decimal integer, `handleConnection` returns with zero bytes
    written; when the value is empty the header counts as absent and a request
    with a valid request line is built with an empty body. -/
theorem non_decimal_content_length_writes_nothing (conn : Conn) (requestLine : Bytes)
    (reader : Reader) (headers : GoMap Bytes Bytes)
    (hline : readLine ⟨[], conn⟩ = (some requestLine, reader))
    (hheaders : headers = (readHeaders (reader.pending.length + 1) [] reader).1) :
    (headers.get (bytesOf "Content-Length") ≠ [] →
        isDecimalInteger (headers.get (bytesOf "Content-Length")) = false →
        handleConnection conn = ⟨[], false⟩) ∧
      (headers.get (bytesOf "Content-Length") = [] →
        ∀ method path version, splitN requestLine 32 3 = [method, path, version] →
          parseRequest conn = Parsed.request ⟨method, path, headers, []⟩) := by
  rcases hrh : readHeaders (reader.pending.length + 1) [] reader with ⟨hs, r2⟩
  rw [hrh] at hheaders
  dsimp only at hheaders
  subst hheaders
  constructor
  · intro hne hdec
    have hparse : parseFrom ⟨[], conn⟩ = Parsed.aborted := by
      unfold parseFrom
      rw [hline]
      dsimp only
      split
      · rw [hrh]
        simp [hne, atoi_none_of_not_decimal _ hdec]
      · rfl
    unfold handleConnection parseRequest
    rw [hparse]
  · intro hempty method path version hsplit
    unfold parseRequest parseFrom
    rw [hline]
    simp only [hsplit, hrh, hempty, ne_eq, not_true_eq_false, if_false]

/-- Witness of C6 (amended): the value `"5x"` aborts, the empty value does not. -/
theorem non_decimal_content_length_writes_nothing_witness :
    handleConnection [bytesOf "POST /api/data HTTP/1.1\r\nContent-Length: 5x\r\n\r\nhello"]
        = ⟨[], false⟩ ∧
      parseRequest [bytesOf "GET /home HTTP/1.1\r\nContent-Length:\r\n\r\n"]
        = Parsed.request ⟨bytesOf "GET", bytesOf "/home", [(bytesOf "Content-Length", [])], []⟩ :=
  ⟨(non_decimal_content_length_writes_nothing
      [bytesOf "POST /api/data HTTP/1.1\r\nContent-Length: 5x\r\n\r\nhello"]
      (bytesOf "POST /api/data HTTP/1.1") ⟨bytesOf "Content-Length: 5x\r\n\r\nhello", []⟩
      [(bytesOf "Content-Length", bytesOf "5x")] (by decide) (by decide)).1
      (by decide) (by decide),
   (non_decimal_content_length_writes_nothing
      [bytesOf "GET /home HTTP/1.1\r\nContent-Length:\r\n\r\n"]
      (bytesOf "GET /home HTTP/1.1") ⟨bytesOf "Content-Length:\r\n\r\n", []⟩
      [(bytesOf "Content-Length", [])] (by decide) (by decide)).2
      (by decide) (bytesOf "GET") (bytesOf "/home") (bytesOf "HTTP/1.1") (by decide)⟩

/-- C7, evaluated: after `"GET /home HTTP/1.1\r\n"` the stream ends, the first
    header-line read fails, the loop is left by `break` and the request is
    dispatched and answered. -/
theorem failed_header_read_is_answered :
    readLine ⟨[], [bytesOf "GET /home HTTP/1.1\r\n"]⟩ = (some (bytesOf "GET /home HTTP/1.1"), ⟨[], []⟩) ∧
      readLine ⟨[], []⟩ = (none, ⟨[], []⟩) ∧
      handleConnection [bytesOf "GET /home HTTP/1.1\r\n"] =
        ⟨bytesOf "HTTP/1.1 200 \r\nContent-Type: text/html\r\n\r\n<h1>Home</h1>", false⟩ := by
  decide

/-- C8, refuted as stated: a request with an empty method and a path without a
    leading slash is built and handed to the 404 fallback. -/
theorem empty_method_is_dispatched :
    parseRequest [bytesOf " nope HTTP/1.1\r\n\r\n"] = Parsed.request ⟨[], bytesOf "nope", [], []⟩ ∧
      (bytesOf "nope").head? ≠ some 47 ∧
      handleConnection [bytesOf " nope HTTP/1.1\r\n\r\n"] =
        ⟨bytesOf "HTTP/1.1 404 Not Found\r\nContent-Type: text/html\r\n\r\n<h1>Not Found</h1>",
          false⟩ := by
  decide

/-- C8, amended.  Every request that is passed to a route handler has a non-empty
    `Method` and a `Path` that starts with `"/"`: its key is one of the two
    registered keys, part by part.  Every request that is dispatched, to a route
    handler or to the 404 fallback, has as `Method` the text of the request line
    before its first space and as `Path` the text between the first and the
    second space; neither contains a space. -/
theorem dispatched_request_fields (conn : Conn) (request : HTTPRequest)
    (hparse : parseRequest conn = Parsed.request request) :
    (∀ handler, routes.find (request.Method ++ bytesOf " " ++ request.Path) = some handler →
        dispatch request = handler request ∧
        request.Method ≠ [] ∧ request.Path.head? = some 47 ∧
        ((request.Method = bytesOf "GET" ∧ request.Path = bytesOf "/home") ∨
          (request.Method = bytesOf "POST" ∧ request.Path = bytesOf "/api/data"))) ∧
      ∃ requestLine reader version, readLine ⟨[], conn⟩ = (some requestLine, reader) ∧
        requestLine = request.Method ++ 32 :: (request.Path ++ 32 :: version) ∧
        32 ∉ request.Method ∧ 32 ∉ request.Path := by
  obtain ⟨requestLine, reader, version, h1, h2, _, _⟩ := parseFrom_request ⟨[], conn⟩ request hparse
  obtain ⟨hline, hm, hpath⟩ := splitN_three_inv requestLine _ _ version h2
  refine ⟨?_, requestLine, reader, version, h1, hline, hm, hpath⟩
  intro handler hroute
  have hd : dispatch request = handler request := by
    simp only [dispatch, hroute]
  rcases registered_key_fields request.Method request.Path handler hm hroute with
    ⟨em, ep⟩ | ⟨em, ep⟩
  · refine ⟨hd, ?_, ?_, Or.inl ⟨em, ep⟩⟩
    · rw [em]; decide
    · rw [ep]; decide
  · refine ⟨hd, ?_, ?_, Or.inr ⟨em, ep⟩⟩
    · rw [em]; decide
    · rw [ep]; decide

/-- Witness of C8 (amended): the request parsed from `"GET /home HTTP/1.1\r\n\r\n"`,
    which is passed to the handler of `"GET /home"`. -/
theorem dispatched_request_fields_witness :
    (dispatch ⟨bytesOf "GET", bytesOf "/home", [], []⟩ =
          homeHandler ⟨bytesOf "GET", bytesOf "/home", [], []⟩ ∧
        bytesOf "GET" ≠ [] ∧ (bytesOf "/home").head? = some 47 ∧
        ((bytesOf "GET" = bytesOf "GET" ∧ bytesOf "/home" = bytesOf "/home") ∨
          (bytesOf "GET" = bytesOf "POST" ∧ bytesOf "/home" = bytesOf "/api/data"))) ∧
      ∃ requestLine reader version,
        readLine ⟨[], [bytesOf "GET /home HTTP/1.1\r\n\r\n"]⟩ = (some requestLine, reader) ∧
        requestLine = bytesOf "GET" ++ 32 :: (bytesOf "/home" ++ 32 :: version) ∧
        32 ∉ bytesOf "GET" ∧ 32 ∉ bytesOf "/home" :=
  ⟨(dispatched_request_fields [bytesOf "GET /home HTTP/1.1\r\n\r\n"]
      ⟨bytesOf "GET", bytesOf "/home", [], []⟩ (by decide)).1 homeHandler rfl,
   (dispatched_request_fields [bytesOf "GET /home HTTP/1.1\r\n\r\n"]
      ⟨bytesOf "GET", bytesOf "/home", [], []⟩ (by decide)).2⟩

/-- C9.  For header lines (non-empty, each ended by CRLF) followed by the empty
    line, the map the header loop builds is the left-to-right fold of the lines
    worded by the specification: a line with a colon sets the trimmed text before
    its first colon to the trimmed text after it, overwriting an earlier value of
    that name; a line without a colon changes nothing and the loop goes on.  The
    same holds for the `Headers` of a request parsed from a connection that
    delivers a request line, these lines and the empty line. -/
theorem headers_are_fold_of_lines (lines : List Bytes)
    (hl : ∀ l ∈ lines, l ≠ [] ∧ 10 ∉ l) :
    (∀ (r : Reader) (t : Bytes),
        r.pending = lines.flatMap (fun l => l ++ [13, 10]) ++ 13 :: 10 :: t →
        GoMap.find (readHeaders (r.pending.length + 1) [] r).1 = specHeaders lines) ∧
      (∀ (conn : Conn) (method path version t : Bytes) (request : HTTPRequest),
        conn.flatten = requestHead method path version lines ++ t →
        10 ∉ method → 10 ∉ path → 10 ∉ version →
        parseRequest conn = Parsed.request request →
        GoMap.find request.Headers = specHeaders lines) := by
  have hloop : ∀ (r : Reader) (t : Bytes),
      r.pending = lines.flatMap (fun l => l ++ [13, 10]) ++ 13 :: 10 :: t →
      GoMap.find (readHeaders (r.pending.length + 1) [] r).1 = specHeaders lines := by
    intro r t hp
    obtain ⟨r2, h2, _⟩ := readHeaders_lines (r.pending.length + 1) [] r lines t hp hl
      (by
        rw [hp]
        have := length_le_flatMap_crlf lines
        simp only [List.length_append]
        omega)
    rw [h2]
    exact find_foldl_headerStep lines []
  refine ⟨hloop, ?_⟩
  intro conn method path version t request hconn hm hp hv hparse
  obtain ⟨requestLine, reader, _, h1, _, h3, _⟩ := parseFrom_request ⟨[], conn⟩ request hparse
  obtain ⟨r1, h1b, hp1⟩ := readLine_crlf ⟨[], conn⟩ (method ++ 32 :: (path ++ 32 :: version))
    (lines.flatMap (fun l => l ++ [13, 10]) ++ 13 :: 10 :: t)
    (by simp [Reader.pending, hconn, requestHead]) (by simp [hm, hp, hv])
  rw [h1b] at h1
  simp only [Prod.mk.injEq, Option.some.injEq] at h1
  obtain ⟨_, rfl⟩ := h1
  rw [h3]
  exact hloop r1 t hp1

/-- Witness of C9: two lines for the name `A`, one line with two colons and one
    line without a colon. -/
theorem headers_are_fold_of_lines_witness :
    GoMap.find (readHeaders 33 []
        ⟨[], [bytesOf "A: b\r\na:c:d\r\nA:  e \r\nnocolon\r\n\r\n"]⟩).1
        = specHeaders [bytesOf "A: b", bytesOf "a:c:d", bytesOf "A:  e ", bytesOf "nocolon"] ∧
      specHeaders [bytesOf "A: b", bytesOf "a:c:d", bytesOf "A:  e ", bytesOf "nocolon"]
        (bytesOf "A") = some (bytesOf "e") ∧
      specHeaders [bytesOf "A: b", bytesOf "a:c:d", bytesOf "A:  e ", bytesOf "nocolon"]
        (bytesOf "a") = some (bytesOf "c:d") ∧
      specHeaders [bytesOf "A: b", bytesOf "a:c:d", bytesOf "A:  e ", bytesOf "nocolon"]
        (bytesOf "nocolon") = none :=
  ⟨(headers_are_fold_of_lines
      [bytesOf "A: b", bytesOf "a:c:d", bytesOf "A:  e ", bytesOf "nocolon"] (by decide)).1
      ⟨[], [bytesOf "A: b\r\na:c:d\r\nA:  e \r\nnocolon\r\n\r\n"]⟩ [] (by decide),
   by decide, by decide, by decide⟩

/-- C10.  The handler registered under `"POST /api/data"` returns, for every
    request, status code 200, the single header `Content-Type: application/json`
    and the body `{"message": "Dados recebidos", "body": "` + request body + `"}`
    with the request body copied verbatim; the request
    `"POST /api/data HTTP/1.1\r\nContent-Length: 5\r\n\r\nhello"` is answered with
    a body that embeds `hello`. -/
theorem data_handler_embeds_body :
    (∃ handler, routes.find (bytesOf "POST /api/data") = some handler ∧
      ∀ request : HTTPRequest,
        (handler request).StatusCode = 200 ∧
        (handler request).Headers = [(bytesOf "Content-Type", bytesOf "application/json")] ∧
        (handler request).Body =
          bytesOf "\x7b\"message\": \"Dados recebidos\", \"body\": \"" ++ request.Body
            ++ bytesOf "\"\x7d") ∧
      handleConnection [bytesOf "POST /api/data HTTP/1.1\r\nContent-Length: 5\r\n\r\nhello"] =
        ⟨bytesOf ("HTTP/1.1 200 \r\nContent-Type: application/json\r\n\r\n"
          ++ "\x7b\"message\": \"Dados recebidos\", \"body\": \"hello\"\x7d"), false⟩ := by
  refine ⟨⟨dataHandler, rfl, fun request => ⟨rfl, rfl, rfl⟩⟩, ?_⟩
  decide

/-- C11.  Dispatch never fails.  Once parsing has built a request, the bytes
    written begin with `"HTTP/1.1 "` (so they are not empty), whether or not the
    route is registered.  With the request line split into three parts and the
    headers read, parsing builds a request exactly when the `Content-Length`
    value is empty, or is an integer for which the body buffer is made and the
    body read into it returns no error.  And for every input the bytes written
    are empty or begin with `"HTTP/1.1 "`. -/
theorem dispatch_never_fails (conn : Conn) :
    (∀ request, parseRequest conn = Parsed.request request →
        ∃ tail, handleConnection conn = ⟨bytesOf "HTTP/1.1 " ++ tail, false⟩) ∧
      (∀ requestLine reader method path version headers reader2,
        readLine ⟨[], conn⟩ = (some requestLine, reader) →
        splitN requestLine 32 3 = [method, path, version] →
        readHeaders (reader.pending.length + 1) [] reader = (headers, reader2) →
        ((GoMap.get headers (bytesOf "Content-Length") = [] ∨
            ∃ (contentLength : Int) (len : Nat) (got : Bytes),
              atoi (GoMap.get headers (bytesOf "Content-Length")) = some contentLength ∧
              makeslice contentLength = some len ∧
              reader2.read len = some got) ↔
          ∃ request, parseRequest conn = Parsed.request request)) ∧
      ((handleConnection conn).written = [] ∨
        ∃ tail, (handleConnection conn).written = bytesOf "HTTP/1.1 " ++ tail) := by
  refine ⟨?_, ?_, ?_⟩
  · intro request h
    obtain ⟨tail, ht⟩ := serialize_starts (dispatch request)
    exact ⟨tail, by rw [handleConnection_of_request conn request h, ht]⟩
  · intro requestLine reader method path version headers reader2 h1 h2 h3
    unfold parseRequest
    rw [parseFrom_eq _ requestLine reader method path version headers reader2 h1 h2 h3]
    by_cases he : GoMap.get headers (bytesOf "Content-Length") = []
    · simp [he]
    · simp only [he, false_or, ne_eq, not_false_eq_true, if_true]
      cases hat : atoi (GoMap.get headers (bytesOf "Content-Length")) with
      | none => simp
      | some contentLength =>
        cases hmk : makeslice contentLength with
        | none => simp [hmk]
        | some len =>
          cases hrd : reader2.read len with
          | none => simp [hmk, hrd]
          | some got => simp [hmk, hrd]
  · unfold handleConnection
    cases parseRequest conn with
    | aborted => exact Or.inl rfl
    | panicked => exact Or.inl rfl
    | request request =>
      obtain ⟨tail, ht⟩ := serialize_starts (dispatch request)
      exact Or.inr ⟨tail, ht⟩

/-- Witness of C11: an unregistered route with a body that is read without error. -/
theorem dispatch_never_fails_witness :
    ∃ tail, handleConnection [bytesOf "PUT /x HTTP/1.1\r\nContent-Length: 2\r\n\r\nhi"] =
      ⟨bytesOf "HTTP/1.1 " ++ tail, false⟩ :=
  (dispatch_never_fails [bytesOf "PUT /x HTTP/1.1\r\nContent-Length: 2\r\n\r\nhi"]).1
    ⟨bytesOf "PUT", bytesOf "/x", [(bytesOf "Content-Length", bytesOf "2")], bytesOf "hi"⟩
    (by decide)

/-- C12, refuted as stated: `Content-Length: 10` followed by only `"hello"`.  The
    single read delivers five bytes without an error, the handler is invoked with
    `"hello"` and five zero bytes, and its response is written. -/
theorem short_body_is_answered :
    parseRequest [bytesOf "POST /api/data HTTP/1.1\r\nContent-Length: 10\r\n\r\nhello"] =
        Parsed.request ⟨bytesOf "POST", bytesOf "/api/data",
          [(bytesOf "Content-Length", bytesOf "10")], bytesOf "hello" ++ [0, 0, 0, 0, 0]⟩ ∧
      handleConnection [bytesOf "POST /api/data HTTP/1.1\r\nContent-Length: 10\r\n\r\nhello"] =
        ⟨bytesOf ("HTTP/1.1 200 \r\nContent-Type: application/json\r\n\r\n"
            ++ "\x7b\"message\": \"Dados recebidos\", \"body\": \"hello")
          ++ [0, 0, 0, 0, 0] ++ bytesOf "\"\x7d", false⟩ := by
  decide

/-- C12, amended.  With a `Content-Length` value that is the numeral of `n`, `n`
    at most `maxAlloc` so that the body buffer is made, the connection is
    aborted with zero bytes written when the single body read fails, which it
    does exactly when `n > 0`, nothing is buffered and the connection delivers
    nothing more.  A read that delivers fewer than `n` bytes without an error
    does not abort: the request is built with the delivered bytes padded with
    zero bytes. -/
theorem failed_body_read_writes_nothing (conn : Conn) (requestLine : Bytes) (reader : Reader)
    (headers : GoMap Bytes Bytes) (reader2 : Reader) (n : Nat)
    (h1 : readLine ⟨[], conn⟩ = (some requestLine, reader))
    (h3 : readHeaders (reader.pending.length + 1) [] reader = (headers, reader2))
    (hat : atoi (GoMap.get headers (bytesOf "Content-Length")) = some (n : Int))
    (hn : n ≤ maxAlloc) :
    (reader2.read n = none → handleConnection conn = ⟨[], false⟩) ∧
      (reader2.read n = none ↔ 0 < n ∧ reader2.buf = [] ∧ nextDelivery reader2.conn = none) ∧
      (∀ got method path version, reader2.read n = some got →
        splitN requestLine 32 3 = [method, path, version] →
        parseRequest conn =
          Parsed.request ⟨method, path, headers, got ++ List.replicate (n - got.length) 0⟩) := by
  have hcl : GoMap.get headers (bytesOf "Content-Length") ≠ [] := by
    intro he
    rw [he] at hat
    simp [atoi] at hat
  have hmk := makeslice_natCast n hn
  refine ⟨?_, read_eq_none_iff reader2 n, ?_⟩
  · intro hrd
    have hparse : parseFrom ⟨[], conn⟩ = Parsed.aborted := by
      unfold parseFrom
      rw [h1]
      dsimp only
      split
      · rw [h3]
        simp only [ne_eq, hcl, not_false_eq_true, if_true, hat, hmk, hrd]
      · rfl
    unfold handleConnection parseRequest
    rw [hparse]
  · intro got method path version hrd h2
    unfold parseRequest
    rw [parseFrom_eq _ requestLine reader method path version headers reader2 h1 h2 h3]
    simp only [ne_eq, hcl, not_false_eq_true, if_true, hat, hmk, hrd]

/-- Witness of C12 (amended): `Content-Length: 10` and the stream ends after the
    empty line. -/
theorem failed_body_read_writes_nothing_witness :
    handleConnection [bytesOf "POST /api/data HTTP/1.1\r\nContent-Length: 10\r\n\r\n"] =
      ⟨[], false⟩ :=
  (failed_body_read_writes_nothing [bytesOf "POST /api/data HTTP/1.1\r\nContent-Length: 10\r\n\r\n"]
    (bytesOf "POST /api/data HTTP/1.1") ⟨bytesOf "Content-Length: 10\r\n\r\n", []⟩
    [(bytesOf "Content-Length", bytesOf "10")] ⟨[], []⟩ 10 (by decide) (by decide)
    (by decide) (by decide)).1 (by decide)

/-- C13.  Every request that reaches dispatch has an empty body when its header
    map has no `Content-Length` value; otherwise that value is the numeral of
    some `n ≥ 0`, the body has length `n`, and it is the bytes the single read
    delivered (at most `n`) followed by zero bytes. -/
theorem body_length_is_declared_length (conn : Conn) (request : HTTPRequest)
    (h : parseRequest conn = Parsed.request request) :
    (GoMap.get request.Headers (bytesOf "Content-Length") = [] ∧ request.Body = []) ∨
    (GoMap.get request.Headers (bytesOf "Content-Length") ≠ [] ∧
      ∃ (n : Nat) (got : Bytes) (requestLine : Bytes) (reader reader2 : Reader),
        atoi (GoMap.get request.Headers (bytesOf "Content-Length")) = some (n : Int) ∧
        readLine ⟨[], conn⟩ = (some requestLine, reader) ∧
        readHeaders (reader.pending.length + 1) [] reader = (request.Headers, reader2) ∧
        reader2.read n = some got ∧ got.length ≤ n ∧
        request.Body = got ++ List.replicate (n - got.length) 0 ∧
        request.Body.length = n) := by
  rcases parseFrom_request_body ⟨[], conn⟩ request h with hl | ⟨hcl, n, got, requestLine, reader,
    reader2, hat, h1, h3, hrd, hbody⟩
  · exact Or.inl hl
  · have hle := read_length_le reader2 n got hrd
    refine Or.inr ⟨hcl, n, got, requestLine, reader, reader2, hat, h1, h3, hrd, hle, hbody, ?_⟩
    rw [hbody]
    simp only [List.length_append, List.length_replicate]
    omega

/-- Witness of C13: `Content-Length: 10` followed by `"hello"` gives a body of
    length 10, `"hello"` and five zero bytes. -/
theorem body_length_is_declared_length_witness :
    (GoMap.get [(bytesOf "Content-Length", bytesOf "10")] (bytesOf "Content-Length") = [] ∧
        bytesOf "hello" ++ [0, 0, 0, 0, 0] = []) ∨
    (GoMap.get [(bytesOf "Content-Length", bytesOf "10")] (bytesOf "Content-Length") ≠ [] ∧
      ∃ (n : Nat) (got : Bytes) (requestLine : Bytes) (reader reader2 : Reader),
        atoi (GoMap.get [(bytesOf "Content-Length", bytesOf "10")] (bytesOf "Content-Length"))
          = some (n : Int) ∧
        readLine ⟨[], [bytesOf "POST /api/data HTTP/1.1\r\nContent-Length: 10\r\n\r\nhello"]⟩
          = (some requestLine, reader) ∧
        readHeaders (reader.pending.length + 1) [] reader
          = ([(bytesOf "Content-Length", bytesOf "10")], reader2) ∧
        reader2.read n = some got ∧ got.length ≤ n ∧
        bytesOf "hello" ++ [0, 0, 0, 0, 0] = got ++ List.replicate (n - got.length) 0 ∧
        (bytesOf "hello" ++ [0, 0, 0, 0, 0]).length = n) :=
  body_length_is_declared_length
    [bytesOf "POST /api/data HTTP/1.1\r\nContent-Length: 10\r\n\r\nhello"]
    ⟨bytesOf "POST", bytesOf "/api/data", [(bytesOf "Content-Length", bytesOf "10")],
      bytesOf "hello" ++ [0, 0, 0, 0, 0]⟩ (by decide)

/-- C15, evaluated: the value `"-1"` parses as the integer `-1`, the allocation
    `make([]byte, -1)` panics, and nothing is written. -/
theorem negative_content_length_panics :
    atoi (bytesOf "-1") = some (-1) ∧
      parseRequest [bytesOf "POST /api/data HTTP/1.1\r\nContent-Length: -1\r\n\r\n"] =
        Parsed.panicked ∧
      handleConnection [bytesOf "POST /api/data HTTP/1.1\r\nContent-Length: -1\r\n\r\n"] =
        ⟨[], true⟩ := by
  decide

/-- C16.  The body is read only under the exact key `Content-Length` with a
    non-empty value.  A header line named otherwise (for example `content-length`)
    leaves the value under `Content-Length` as it was; and when the request line
    splits into three parts and the header map has no non-empty value under that
    key, the request is built with an empty body, whatever bytes follow the
    header block, and it is dispatched and answered. -/
theorem no_content_length_no_body :
    (∀ (headers : GoMap Bytes Bytes) (line : Bytes),
        (58 ∈ line → lineName line ≠ bytesOf "Content-Length") →
        GoMap.get (headerStep headers line) (bytesOf "Content-Length") =
          GoMap.get headers (bytesOf "Content-Length")) ∧
      (∀ (conn : Conn) (requestLine : Bytes) (reader : Reader) (method path version : Bytes)
          (headers : GoMap Bytes Bytes) (reader2 : Reader),
        readLine ⟨[], conn⟩ = (some requestLine, reader) →
        splitN requestLine 32 3 = [method, path, version] →
        readHeaders (reader.pending.length + 1) [] reader = (headers, reader2) →
        GoMap.get headers (bytesOf "Content-Length") = [] →
        parseRequest conn = Parsed.request ⟨method, path, headers, []⟩ ∧
          handleConnection conn = ⟨serialize (dispatch ⟨method, path, headers, []⟩), false⟩ ∧
          (handleConnection conn).written ≠ []) := by
  constructor
  · intro headers line hname
    unfold GoMap.get
    rw [find_headerStep]
    unfold specStep
    by_cases hc : 58 ∈ line
    · simp [hc, Function.update_apply, Ne.symm (hname hc)]
    · simp [hc]
  · intro conn requestLine reader method path version headers reader2 h1 h2 h3 hcl
    have hparse : parseRequest conn = Parsed.request ⟨method, path, headers, []⟩ := by
      unfold parseRequest
      rw [parseFrom_eq _ requestLine reader method path version headers reader2 h1 h2 h3]
      simp [hcl]
    have hout := handleConnection_of_request conn _ hparse
    refine ⟨hparse, hout, ?_⟩
    rw [hout]
    exact serialize_ne_nil _

/-- Witness of C16: the header spelled `content-length`, followed by bytes that
    are not read. -/
theorem no_content_length_no_body_witness :
    GoMap.get (headerStep [] (bytesOf "content-length: 5")) (bytesOf "Content-Length") =
        GoMap.get [] (bytesOf "Content-Length") ∧
      parseRequest [bytesOf "POST /api/data HTTP/1.1\r\ncontent-length: 5\r\n\r\nhello"] =
        Parsed.request ⟨bytesOf "POST", bytesOf "/api/data",
          [(bytesOf "content-length", bytesOf "5")], []⟩ ∧
      handleConnection [bytesOf "POST /api/data HTTP/1.1\r\ncontent-length: 5\r\n\r\nhello"] =
        ⟨serialize (dispatch ⟨bytesOf "POST", bytesOf "/api/data",
          [(bytesOf "content-length", bytesOf "5")], []⟩), false⟩ ∧
      (handleConnection
        [bytesOf "POST /api/data HTTP/1.1\r\ncontent-length: 5\r\n\r\nhello"]).written ≠ [] :=
  ⟨no_content_length_no_body.1 [] (bytesOf "content-length: 5") (by decide),
   no_content_length_no_body.2
    [bytesOf "POST /api/data HTTP/1.1\r\ncontent-length: 5\r\n\r\nhello"]
    (bytesOf "POST /api/data HTTP/1.1") ⟨bytesOf "content-length: 5\r\n\r\nhello", []⟩
    (bytesOf "POST") (bytesOf "/api/data") (bytesOf "HTTP/1.1")
    [(bytesOf "content-length", bytesOf "5")] ⟨bytesOf "hello", []⟩
    (by decide) (by decide) (by decide) (by decide)⟩

/-- C17.  The method and the path of a parsed request contain no space character,
    so the routing keys of two parsed requests are equal if and only if their
    methods are equal and their paths are equal. -/
theorem routing_key_is_unambiguous (conn1 conn2 : Conn) (request1 request2 : HTTPRequest)
    (h1 : parseRequest conn1 = Parsed.request request1)
    (h2 : parseRequest conn2 = Parsed.request request2) :
    32 ∉ request1.Method ∧ 32 ∉ request1.Path ∧ 32 ∉ request2.Method ∧ 32 ∉ request2.Path ∧
      (request1.Method ++ bytesOf " " ++ request1.Path =
          request2.Method ++ bytesOf " " ++ request2.Path ↔
        request1.Method = request2.Method ∧ request1.Path = request2.Path) := by
  obtain ⟨l1, _, v1, _, s1, _, _⟩ := parseFrom_request ⟨[], conn1⟩ request1 h1
  obtain ⟨l2, _, v2, _, s2, _, _⟩ := parseFrom_request ⟨[], conn2⟩ request2 h2
  obtain ⟨_, hm1, hp1⟩ := splitN_three_inv l1 _ _ v1 s1
  obtain ⟨_, hm2, hp2⟩ := splitN_three_inv l2 _ _ v2 s2
  refine ⟨hm1, hp1, hm2, hp2, ?_, ?_⟩
  · intro hkey
    have e : bytesOf " " = [32] := by decide
    rw [e] at hkey
    exact split_unique 32 _ _ _ _ hm1 hm2 (by simpa using hkey)
  · rintro ⟨em, ep⟩
    rw [em, ep]

/-- Witness of C17: the requests `GET /home` and `GET /homer`. -/
theorem routing_key_is_unambiguous_witness :
    32 ∉ bytesOf "GET" ∧ 32 ∉ bytesOf "/home" ∧ 32 ∉ bytesOf "GET" ∧ 32 ∉ bytesOf "/homer" ∧
      (bytesOf "GET" ++ bytesOf " " ++ bytesOf "/home" =
          bytesOf "GET" ++ bytesOf " " ++ bytesOf "/homer" ↔
        bytesOf "GET" = bytesOf "GET" ∧ bytesOf "/home" = bytesOf "/homer") :=
  routing_key_is_unambiguous [bytesOf "GET /home HTTP/1.1\r\n\r\n"]
    [bytesOf "GET /homer HTTP/1.1\r\n\r\n"] ⟨bytesOf "GET", bytesOf "/home", [], []⟩
    ⟨bytesOf "GET", bytesOf "/homer", [], []⟩ (by decide) (by decide)

/-- C14, refuted as stated: a header line that is a lone carriage return.  Ended by
    `"\r\n"` it is a line without a colon and the header `X: y` after it is
    stored; ended by a bare `"\n"` it reads as the empty line and ends the header
    block, so the parsed headers differ.  With `Content-Length: x` after it the
    responses differ too: nothing is written in the first form, the 200 response
    in the second. -/
theorem lone_cr_line_ends_headers_early :
    parseRequest [bytesOf "GET /home HTTP/1.1\r\n\r\r\nX: y\r\n\r\n"] =
        Parsed.request ⟨bytesOf "GET", bytesOf "/home", [(bytesOf "X", bytesOf "y")], []⟩ ∧
      parseRequest [bytesOf "GET /home HTTP/1.1\n\r\nX: y\n\n"] =
        Parsed.request ⟨bytesOf "GET", bytesOf "/home", [], []⟩ ∧
      handleConnection [bytesOf "GET /home HTTP/1.1\r\n\r\r\nContent-Length: x\r\n\r\n"] =
        ⟨[], false⟩ ∧
      handleConnection [bytesOf "GET /home HTTP/1.1\n\r\nContent-Length: x\n\n"] =
        ⟨bytesOf "HTTP/1.1 200 \r\nContent-Type: text/html\r\n\r\n<h1>Home</h1>", false⟩ := by
  decide

/-- C14, amended.  For a request without a body (the header block leaves no value
    under `Content-Length`) none of whose header lines is a lone carriage return,
    ending the request line, the header lines and the empty line by a bare `"\n"`
    instead of `"\r\n"` gives the same method, path and headers, and the same
    outcome, however the two connections deliver their bytes. -/
theorem bare_lf_is_tolerated (method path version : Bytes) (headerLines : List Bytes)
    (conn1 conn2 : Conn) (rest1 rest2 : Bytes)
    (hm : 32 ∉ method ∧ 10 ∉ method) (hp : 32 ∉ path ∧ 10 ∉ path) (hv : 10 ∉ version)
    (hh : ∀ l ∈ headerLines, l ≠ [] ∧ l ≠ [13] ∧ 10 ∉ l)
    (hbody : GoMap.get (headerLines.foldl headerStep []) (bytesOf "Content-Length") = [])
    (h1 : conn1.flatten = requestHead method path version headerLines ++ rest1)
    (h2 : conn2.flatten = requestHeadLF method path version headerLines ++ rest2) :
    parseRequest conn1 =
        Parsed.request ⟨method, path, headerLines.foldl headerStep [], []⟩ ∧
      parseRequest conn2 =
        Parsed.request ⟨method, path, headerLines.foldl headerStep [], []⟩ ∧
      handleConnection conn2 = handleConnection conn1 := by
  have hline : 10 ∉ method ++ 32 :: (path ++ 32 :: version) := by
    simp [hm.2, hp.2, hv]
  -- the connection with CRLF
  obtain ⟨r1, hr1, hp1⟩ := readLine_crlf ⟨[], conn1⟩ (method ++ 32 :: (path ++ 32 :: version))
    (headerLines.flatMap (fun l => l ++ [13, 10]) ++ 13 :: 10 :: rest1)
    (by simp [Reader.pending, h1, requestHead]) hline
  obtain ⟨r2, hr2, _⟩ := readHeaders_lines (r1.pending.length + 1) [] r1 headerLines rest1 hp1
    (fun l hl => ⟨(hh l hl).1, (hh l hl).2.2⟩)
    (by
      rw [hp1]
      have := length_le_flatMap_crlf headerLines
      simp only [List.length_append]
      omega)
  have hparse1 : parseRequest conn1 =
      Parsed.request ⟨method, path, headerLines.foldl headerStep [], []⟩ := by
    unfold parseRequest
    rw [parseFrom_eq _ _ r1 method path version _ r2 hr1
      (splitN_three method path version hm.1 hp.1) hr2]
    simp [hbody]
  -- the connection with bare LF
  obtain ⟨s1, hs1, hq1⟩ := readLine_line ⟨[], conn2⟩ (method ++ 32 :: (path ++ 32 :: version))
    (headerLines.flatMap (fun l => l ++ [10]) ++ 10 :: rest2)
    (by simp [Reader.pending, h2, requestHeadLF]) hline
  have hchomp : chomp (method ++ 32 :: (path ++ 32 :: version)) =
      method ++ 32 :: (path ++ 32 :: chomp version) := by
    have e : method ++ 32 :: (path ++ 32 :: version) = (method ++ 32 :: (path ++ [32])) ++ version := by
      simp
    have hlast : (method ++ 32 :: (path ++ [32])).getLast? ≠ some 13 := by
      have e2 : method ++ 32 :: (path ++ [32]) = (method ++ 32 :: path) ++ [32] := by simp
      rw [e2, List.getLast?_concat]
      decide
    rw [e, chomp_append _ _ (Or.inr hlast)]
    simp
  rw [hchomp] at hs1
  obtain ⟨s2, hs2, _⟩ := readHeaders_lines_lf (s1.pending.length + 1) [] s1 headerLines rest2 hq1
    hh
    (by
      rw [hq1]
      have := length_le_flatMap_lf headerLines
      simp only [List.length_append]
      omega)
  have hparse2 : parseRequest conn2 =
      Parsed.request ⟨method, path, headerLines.foldl headerStep [], []⟩ := by
    unfold parseRequest
    rw [parseFrom_eq _ _ s1 method path (chomp version) _ s2 hs1
      (splitN_three method path (chomp version) hm.1 hp.1) hs2]
    simp [hbody]
  refine ⟨hparse1, hparse2, ?_⟩
  rw [handleConnection_of_request conn1 _ hparse1, handleConnection_of_request conn2 _ hparse2]

/-- Witness of C14 (amended): `"GET /home HTTP/1.1\n\n"` and
    `"GET /home HTTP/1.1\r\n\r\n"` give the same outcome. -/
theorem bare_lf_is_tolerated_witness :
    parseRequest [bytesOf "GET /home HTTP/1.1\r\n\r\n"] =
        Parsed.request ⟨bytesOf "GET", bytesOf "/home", [], []⟩ ∧
      parseRequest [bytesOf "GET /home HTTP/1.1\n\n"] =
        Parsed.request ⟨bytesOf "GET", bytesOf "/home", [], []⟩ ∧
      handleConnection [bytesOf "GET /home HTTP/1.1\n\n"] =
        handleConnection [bytesOf "GET /home HTTP/1.1\r\n\r\n"] :=
  bare_lf_is_tolerated (bytesOf "GET") (bytesOf "/home") (bytesOf "HTTP/1.1") []
    [bytesOf "GET /home HTTP/1.1\r\n\r\n"] [bytesOf "GET /home HTTP/1.1\n\n"] [] []
    (by decide) (by decide) (by decide) (by simp) (by decide) (by decide) (by decide)

end GoHttp
